import Mathlib

/-!
Verification of the Huffman coding repository (bits-io.c, huffman.c, pqueue.c,
tree.c) against its specification.  The C sources are shallowly embedded:
pointers become an inductive type with an explicit null constructor, machine
integers become Int (frequency counts, signed char symbol values) or Nat with
explicit mod 256 / mod 2^64 where C truncation occurs, and the stdio streams
become explicit lists of characters or bytes.
-/

set_option maxHeartbeats 3200000

namespace Huffman

/-! ## Data model (tree.h / tree.c)

The TreeNode struct of tree.c carries a Frequency (int v, char c), a node
type (tree.c tags every fresh node INTERNAL and flips deserialized leaf
records to LEAF), and two child pointers.  The char field is modelled as the
signed values -128..127 that the gcc targets of this repository give to char.
A null pointer is modelled by an explicit constructor. -/

inductive NType where
  | INTERNAL
  | LEAF
deriving DecidableEq

structure Frequency where
  v : Int
  c : Int
deriving DecidableEq

inductive TreeNode where
  | null : TreeNode
  | node (freq : Frequency) (ntype : NType) (left right : TreeNode) : TreeNode
deriving DecidableEq

def TreeNode.freqv : TreeNode → Int
  | .null => 0
  | .node f _ _ _ => f.v

def TreeNode.freqc : TreeNode → Int
  | .null => 0
  | .node f _ _ _ => f.c

def TreeNode.left : TreeNode → TreeNode
  | .null => .null
  | .node _ _ l _ => l

def TreeNode.right : TreeNode → TreeNode
  | .null => .null
  | .node _ _ _ r => r

/-- The value a C cast to (signed) char gives to a byte 0..255. -/
def signedChar (n : Nat) : Int :=
  if n % 256 < 128 then (n % 256 : Int) else (n % 256 : Int) - 256

/-- The value a C int-to-char conversion gives to an arbitrary int. -/
def intToChar (i : Int) : Int :=
  if i % 256 < 128 then i % 256 else i % 256 - 256

/-! ## Priority queue (pqueue.c)

The C priority queue is a 256-slot array plus a count; it is modelled as the
list of its first count entries.  The comparator, sift procedures and the
enqueue/dequeue operations follow pqueue.c line by line; the sift procedures
hold the moving element in src exactly as the C code does. -/

def comparator (x y : TreeNode) : Int :=
  if x.freqv < y.freqv then -1
  else if x.freqv > y.freqv then 1
  else x.freqc - y.freqc

/-- Index of the smaller child of i (the min variable of bubble_down). -/
def minChild (arr : List TreeNode) (i endd : Nat) : Nat :=
  if 2*i+2 < endd ∧ comparator (arr.getD (2*i+2) .null) (arr.getD (2*i+1) .null) < 0
  then 2*i+2 else 2*i+1

lemma minChild_gt (arr : List TreeNode) (i endd : Nat) : i < minChild arr i endd := by
  unfold minChild; split <;> omega

lemma minChild_lt (arr : List TreeNode) (i endd : Nat) (h : 2*i+1 < endd) :
    minChild arr i endd < endd := by
  unfold minChild; split <;> omega

lemma minChild_cases (arr : List TreeNode) (i endd : Nat) :
    minChild arr i endd = 2*i+1 ∨ minChild arr i endd = 2*i+2 := by
  unfold minChild; split <;> simp

def bubble_down_aux (arr : List TreeNode) (src : TreeNode) (i endd : Nat) : List TreeNode :=
  if h : 2*i+1 < endd then
    if comparator src (arr.getD (minChild arr i endd) .null) < 0 then
      arr.set i src
    else
      bubble_down_aux (arr.set i (arr.getD (minChild arr i endd) .null)) src
        (minChild arr i endd) endd
  else arr.set i src
termination_by endd - i
decreasing_by
  have := minChild_gt arr i endd
  have := minChild_lt arr i endd h
  omega

def bubble_down (arr : List TreeNode) (i endd : Nat) : List TreeNode :=
  bubble_down_aux arr (arr.getD i .null) i endd

def bubble_up_aux (arr : List TreeNode) (src : TreeNode) (i : Nat) : List TreeNode :=
  if i = 0 then arr.set 0 src
  else
    if comparator (arr.getD ((i-1)/2) .null) src > 0 then
      bubble_up_aux (arr.set i (arr.getD ((i-1)/2) .null)) src ((i-1)/2)
    else arr.set i src
termination_by i
decreasing_by omega

def bubble_up (arr : List TreeNode) (i : Nat) : List TreeNode :=
  bubble_up_aux arr (arr.getD i .null) i

def MAXSIZE : Nat := 256

def pqueue_new : List TreeNode := []

def pqueue_enqueue (pq : List TreeNode) (n : TreeNode) : List TreeNode :=
  if pq.length ≥ MAXSIZE then pq
  else bubble_up (pq ++ [n]) pq.length

def pqueue_dequeue (pq : List TreeNode) : Option (TreeNode × List TreeNode) :=
  if pq.length = 0 then none
  else some (pq.getD 0 .null,
    bubble_down ((pq.dropLast).set 0 (pq.getLastD .null)) 0 (pq.length - 1))

lemma length_bubble_down_aux (arr : List TreeNode) (src : TreeNode) (i endd : Nat) :
    (bubble_down_aux arr src i endd).length = arr.length := by
  induction arr, src, i, endd using bubble_down_aux.induct with
  | case1 arr src i endd h hlt => rw [bubble_down_aux, dif_pos h, if_pos hlt]; simp
  | case2 arr src i endd h hlt ih =>
    rw [bubble_down_aux, dif_pos h, if_neg hlt]
    simpa using ih
  | case3 arr src i endd h => rw [bubble_down_aux, dif_neg h]; simp

lemma length_bubble_up_aux (arr : List TreeNode) (src : TreeNode) (i : Nat) :
    (bubble_up_aux arr src i).length = arr.length := by
  induction arr, src, i using bubble_up_aux.induct with
  | case1 arr src => rw [bubble_up_aux, if_pos rfl]; simp
  | case2 arr src i h hgt ih =>
    rw [bubble_up_aux, if_neg h, if_pos hgt]
    simpa using ih
  | case3 arr src i h hgt => rw [bubble_up_aux, if_neg h, if_neg hgt]; simp

lemma length_dequeue {pq : List TreeNode} {x : TreeNode} {rest : List TreeNode}
    (h : pqueue_dequeue pq = some (x, rest)) : rest.length = pq.length - 1 := by
  unfold pqueue_dequeue at h
  by_cases hl : pq.length = 0
  · rw [if_pos hl] at h; cases h
  · rw [if_neg hl] at h
    injection h with h'
    injection h' with h1 h2
    rw [← h2, bubble_down, length_bubble_down_aux]
    simp

/-! ## Huffman tree construction (huffman.c) -/

def merge_loop (pq : List TreeNode) : List TreeNode :=
  if hgt : pq.length > 1 then
    match h1 : pqueue_dequeue pq with
    | none => pq
    | some (l, pq1) =>
      match h2 : pqueue_dequeue pq1 with
      | none => pq1
      | some (r, pq2) =>
        merge_loop (pqueue_enqueue pq2 (TreeNode.node ⟨l.freqv + r.freqv, 0⟩ .INTERNAL l r))
  else pq
termination_by pq.length
decreasing_by
  have e1 := length_dequeue h1
  have e2 := length_dequeue h2
  unfold pqueue_enqueue
  split
  · omega
  · rw [bubble_up, length_bubble_up_aux]
    simp only [List.length_append, List.length_cons, List.length_nil]
    omega

/-- merge_nodes of huffman.c: when the queue holds a single node a sentinel
node with frequency -1 is enqueued first (tree_new gives it type INTERNAL and
char 0); the loop then repeatedly merges the two minimal nodes. -/
def merge_nodes (pq : List TreeNode) : TreeNode :=
  match pqueue_dequeue (merge_loop (if pq.length = 1 then
      pqueue_enqueue pq (TreeNode.node ⟨-1, 0⟩ .INTERNAL .null .null)
    else pq)) with
  | none => .null
  | some (t, _) => t

/-- compute_freq of huffman.c: the count of each byte value in the input. -/
def countOf (input : List Nat) (i : Nat) : Int := ((input.filter (· % 256 = i)).length : Int)

/-- The frequency table of compute_freq: entry i holds count of byte i and the
char value of i (the char assignment arr[i].c = i truncates to signed char). -/
def freqTable (input : List Nat) : List Frequency :=
  (List.range 256).map (fun i => ⟨countOf input i, signedChar i⟩)

/-- create_tree_nodes of huffman.c: one fresh node per symbol with positive
count, enqueued in symbol order.  tree_new types every fresh node INTERNAL and
create_tree_nodes does not change the type. -/
def create_tree_nodes (table : List Frequency) : List TreeNode :=
  table.foldl (fun pq f =>
    if f.v > 0 then pqueue_enqueue pq (TreeNode.node f .INTERNAL .null .null) else pq) pqueue_new

def huffman_build_tree (input : List Nat) : TreeNode :=
  merge_nodes (create_tree_nodes (freqTable input))

/-- Modelled from the spec: tree_is_leaf is declared in tree.h but its
definition is not among the provided sources; per the spec a leaf is a node
holding a single symbol, i.e. a node without children. -/
def tree_is_leaf (t : TreeNode) : Bool :=
  t.left = TreeNode.null && t.right = TreeNode.null

/-- huffman_find of huffman.c.  The bit characters walk the tree (char 1 goes
left, any other char goes right); a missing child returns -1.  On string end
the code asserts tree_is_leaf and then returns the char at the node; the
assertion failure (path ending at a non-leaf) is modelled as none, a normal
return value v as some v. -/
def huffman_find (t : TreeNode) (enc : List Char) : Option Int :=
  match enc with
  | [] => if tree_is_leaf t then some t.freqc else none
  | ch :: rest =>
    if ch = '1' then
      if t.left = TreeNode.null then some (-1) else huffman_find t.left rest
    else
      if t.right = TreeNode.null then some (-1) else huffman_find t.right rest

/-! ## Tree serialization (tree.c)

tree_serialize_rec prints a record for a node of type LEAF
(fprintf of freq.v and freq.c as decimal integers, comma terminated, the char
value promoted to int, so bytes 128..255 print as negative numbers) and for
any other node recurses into the non-null children printing nothing for the
node itself.  tree_serialize wraps the records in a pair of hash marks. -/

def natStr (n : Nat) : List Char :=
  if _h : n < 10 then [Char.ofNat (48 + n)]
  else natStr (n / 10) ++ [Char.ofNat (48 + n % 10)]
decreasing_by
  exact Nat.div_lt_self (by omega) (by omega)

def intStr (i : Int) : List Char :=
  if i < 0 then '-' :: natStr (-i).toNat else natStr i.toNat

def ser (t : TreeNode) : List Char :=
  match t with
  | .null => []
  | .node f ty l r =>
    if ty = .LEAF then intStr f.v ++ ' ' :: intStr f.c ++ [',']
    else ser l ++ ser r

def tree_serialize (t : TreeNode) : List Char := '#' :: ser t ++ ['#']

/-! ## Tree deserialization (tree.c)

tree_deserialize consumes the stream with getc, fscanf of two decimal
integers, fgetc and ungetc.  The fscanf format string of two ints separated
by blank and followed by a comma is modelled faithfully: leading whitespace
is skipped before each conversion, a sign is accepted, the comma is consumed
when present; the call reports end of input before the first conversion,
a record that does not parse, or success with both values.  All error paths
of tree_deserialize return the null pointer. -/

def isDigitC (c : Char) : Bool := '0' ≤ c && c ≤ '9'

def isSpaceC (c : Char) : Bool :=
  c = ' ' || c = '\t' || c = '\n' || c = '\r' || c = Char.ofNat 11 || c = Char.ofNat 12

def skipWs : List Char → List Char
  | [] => []
  | c :: r => if isSpaceC c then skipWs r else c :: r

def digitsLoop : Nat → List Char → Nat × List Char
  | acc, [] => (acc, [])
  | acc, c :: r => if isDigitC c then digitsLoop (acc * 10 + (c.toNat - 48)) r else (acc, c :: r)

def parseIntC (s : List Char) : Option (Int × List Char) :=
  match s with
  | [] => none
  | c :: r =>
    if c = '-' then
      if r ≠ [] ∧ isDigitC (r.headD ' ') then
        some (-(((digitsLoop 0 r).1 : Int)), (digitsLoop 0 r).2)
      else none
    else if c = '+' then
      if r ≠ [] ∧ isDigitC (r.headD ' ') then
        some (((digitsLoop 0 r).1 : Int), (digitsLoop 0 r).2)
      else none
    else if isDigitC c then
      some (((digitsLoop 0 (c :: r)).1 : Int), (digitsLoop 0 (c :: r)).2)
    else none

inductive ScanDD where
  | eofErr
  | short
  | two (v1 v2 : Int) (rest : List Char)
deriving DecidableEq

def dropComma (s : List Char) : List Char :=
  if s.headD 'x' = ',' then s.tail else s

lemma dropComma_length (s : List Char) : (dropComma s).length ≤ s.length := by
  unfold dropComma; split <;> simp [List.length_tail]

/-- The fscanf call of tree_deserialize on the remaining stream: eofErr is
the EOF return (input exhausted, up to whitespace, before the first
conversion), short is a return value below 2, two is a successful parse of
both integers with the rest of the stream after the optional comma. -/
def fscanf_dd (s : List Char) : ScanDD :=
  match skipWs s with
  | [] => .eofErr
  | c :: r =>
    match parseIntC (c :: r) with
    | none => .short
    | some (v1, s2) =>
      match parseIntC (skipWs s2) with
      | none => .short
      | some (v2, s4) =>
        .two v1 v2 (dropComma s4)

lemma skipWs_length (s : List Char) : (skipWs s).length ≤ s.length := by
  induction s with
  | nil => simp [skipWs]
  | cons c r ih =>
    simp only [skipWs]
    split
    · simp; omega
    · simp

lemma digitsLoop_length (acc : Nat) (s : List Char) : (digitsLoop acc s).2.length ≤ s.length := by
  induction s generalizing acc with
  | nil => simp [digitsLoop]
  | cons c r ih =>
    simp only [digitsLoop]
    split
    · exact le_trans (ih _) (by simp)
    · simp

lemma parseIntC_length {s : List Char} {v : Int} {rest : List Char}
    (h : parseIntC s = some (v, rest)) : rest.length < s.length := by
  unfold parseIntC at h
  match s with
  | [] => cases h
  | c :: r =>
    simp only at h
    split at h
    · split at h
      · injection h with h'
        injection h' with h1 h2
        have := digitsLoop_length 0 r
        rw [h2] at this
        simp; omega
      · cases h
    · split at h
      · split at h
        · injection h with h'
          injection h' with h1 h2
          have := digitsLoop_length 0 r
          rw [h2] at this
          simp; omega
        · cases h
      · split at h
        · injection h with h'
          injection h' with h1 h2
          rename_i hc1 hc2 hd
          have hstep : digitsLoop 0 (c :: r) = digitsLoop (c.toNat - 48) r := by
            simp [digitsLoop, hd]
          have := digitsLoop_length (c.toNat - 48) r
          rw [hstep] at h2
          rw [h2] at this
          simp; omega
        · cases h

lemma fscanf_dd_length {s : List Char} {v1 v2 : Int} {rest : List Char}
    (h : fscanf_dd s = .two v1 v2 rest) : rest.length < s.length := by
  unfold fscanf_dd at h
  cases hw : skipWs s with
  | nil => rw [hw] at h; cases h
  | cons c r =>
    rw [hw] at h
    simp only at h
    cases hp1 : parseIntC (c :: r) with
    | none => rw [hp1] at h; cases h
    | some p1 =>
      rw [hp1] at h
      obtain ⟨va, s2⟩ := p1
      simp only at h
      cases hp2 : parseIntC (skipWs s2) with
      | none => rw [hp2] at h; cases h
      | some p2 =>
        rw [hp2] at h
        obtain ⟨vb, s4⟩ := p2
        simp only at h
        have l0 : (skipWs s).length ≤ s.length := skipWs_length s
        rw [hw] at l0
        have l1 := parseIntC_length hp1
        have l2 := skipWs_length s2
        have l3 := parseIntC_length hp2
        injection h with _ _ h3
        subst h3
        have l4 := dropComma_length s4
        simp at l0 l1 ⊢
        omega

/-- The record loop of tree_deserialize.  Each iteration performs the fscanf
call; failure returns null, success enqueues a LEAF node built from the two
values (the second truncated by the int-to-char assignment), then an
fgetc/ungetc peek: a hash mark ends the loop and the reconstructed tree is
merge_nodes of the queue, anything else (including end of input) continues. -/
def deser_loop (s : List Char) (pq : List TreeNode) : TreeNode :=
  match h : fscanf_dd s with
  | .eofErr => .null
  | .short => .null
  | .two v1 v2 rest =>
    if rest.headD 'x' = '#' then
      merge_nodes (pqueue_enqueue pq (TreeNode.node ⟨v1, intToChar v2⟩ .LEAF .null .null))
    else deser_loop rest (pqueue_enqueue pq (TreeNode.node ⟨v1, intToChar v2⟩ .LEAF .null .null))
termination_by s.length
decreasing_by
  exact fscanf_dd_length h

/-- tree_deserialize: a stream not starting with a hash mark returns null,
otherwise the record loop runs on the remainder. -/
def tree_deserialize (s : List Char) : TreeNode :=
  match s with
  | '#' :: r => deser_loop r []
  | _ => .null

/-! ## Bit stream (bits-io.c)

The BitsIOFile struct is split into a write-mode and a read-mode state.  The
byte member is an unsigned char, so every update is taken mod 256.  The large
batching buffer is kept (as a list, with its one-megabyte capacity check);
fwrite and fread move whole chunks between it and the file, modelled as a
list of byte values. -/

def BUF_SIZE : Nat := 1 <<< 20

structure WriteState where
  byte : Nat
  nbits : Nat
  buf : List Nat
  file : List Nat
deriving DecidableEq

/-- The state of a freshly opened write-mode BitsIOFile. -/
def openW : WriteState := ⟨0, 0, [], []⟩

/-- flush_buf in write mode: fwrite moves the buffered bytes to the file.
(Its result is EOF precisely when fewer than BUF_SIZE bytes were passed,
which bits_io_close ignores; the bytes are transferred either way.) -/
def flushW (s : WriteState) : WriteState := { s with file := s.file ++ s.buf, buf := [] }

/-- bits_io_write_bit: shift the bit into the accumulator; after the eighth
bit append the completed byte to the buffer (flushing a full buffer first)
and reset the accumulator. -/
def bits_io_write_bit (s : WriteState) (bit : Nat) : WriteState :=
  if s.nbits + 1 ≥ 8 then
    let s1 := if s.buf.length ≥ BUF_SIZE then flushW s else s
    { s1 with buf := s1.buf ++ [((s.byte <<< 1) ||| bit) % 256], byte := 0, nbits := 0 }
  else { s with byte := ((s.byte <<< 1) ||| bit) % 256, nbits := s.nbits + 1 }

def writeBits (s : WriteState) (bs : List Nat) : WriteState := bs.foldl bits_io_write_bit s

/-- bits_io_close in write mode: flush the buffer, then if the accumulator
holds nbits > 0 bits emit them left-justified with zero padding.  The result
is the full content of the produced file. -/
def bits_io_close_w (s : WriteState) : List Nat :=
  if s.nbits > 0 then (flushW s).file ++ [((s.byte <<< (8 - s.nbits)) % 256)]
  else (flushW s).file

structure ReadState where
  byte : Nat
  nbits : Nat
  buf : List Nat
  index : Nat
  file : List Nat
deriving DecidableEq

/-- The state of a freshly opened read-mode BitsIOFile on a given file:
nbits 8 and index BUF_SIZE force a refill on the first read. -/
def openR (file : List Nat) : ReadState := ⟨0, 8, [], BUF_SIZE, file⟩

/-- fill_buf: fread pulls up to BUF_SIZE bytes from the file into the buffer;
a read of zero bytes reports EOF. -/
def fill_buf (s : ReadState) : Option ReadState :=
  if s.file.length = 0 then none
  else some { s with buf := s.file.take BUF_SIZE, file := s.file.drop BUF_SIZE, index := 0 }

/-- bits_io_read_bit: when the current byte is exhausted fetch the next
buffered byte (refilling the buffer when needed; EOF if none), then return
the high bit of the current byte and shift it out. -/
def bits_io_read_bit (s : ReadState) : Option (Nat × ReadState) :=
  if s.nbits ≥ 8 then
    match (if s.index ≥ s.buf.length then fill_buf s else some s) with
    | none => none
    | some s1 =>
      some (s1.buf.getD s1.index 0 >>> 7,
        { s1 with index := s1.index + 1,
                  byte := ((s1.buf.getD s1.index 0) <<< 1) % 256, nbits := 1 })
  else
    some (s.byte >>> 7, { s with byte := (s.byte <<< 1) % 256, nbits := s.nbits + 1 })

def readMeasure (s : ReadState) : Nat :=
  8 * s.file.length + 8 * (s.buf.length - s.index) + (8 - s.nbits)

/-- The full bit sequence obtained by calling bits_io_read_bit until it
reports EOF. -/
def readAll (s : ReadState) : List Nat :=
  match h : bits_io_read_bit s with
  | none => []
  | some (b, s') => b :: readAll s'
termination_by readMeasure s
decreasing_by
  unfold bits_io_read_bit at h
  split at h
  · split at h
    · exact absurd h (by simp)
    · rename_i s1 heq
      split at heq
      · unfold fill_buf at heq
        split at heq
        · exact absurd heq (by simp)
        · injection heq with heq
          injection h with h'
          injection h' with hb hs
          rw [← hs, ← heq]
          unfold readMeasure
          rename_i hnb hge hne
          simp only [List.length_take, List.length_drop]
          have hpos : BUF_SIZE > 0 := by decide
          omega
      · injection heq with heq
        injection h with h'
        injection h' with hb hs
        rw [← hs, ← heq]
        unfold readMeasure
        rename_i hnb hlt
        simp only
        omega
  · injection h with h'
    injection h' with hb hs
    rw [← hs]
    unfold readMeasure
    rename_i hnb
    simp only
    omega

/-! ## Fixed-width integer header (bits-io.c write_offset / read_offset) -/

/-- write_offset in write mode: the eight bytes emitted for a uint64 value,
most significant first. -/
def write_offset_bytes (size : Nat) : List Nat :=
  (List.range 8).reverse.map (fun i => (size >>> (i * 8)) % 256)

/-- The loop of read_offset: eight fgetc calls; an EOF mid-way returns the
uint64 value of -1L; otherwise each byte is shifted into the accumulator
(uint64 arithmetic, mod 2^64). -/
def read_offset_loop : List Nat → Nat → Nat → Nat
  | _, size, 0 => size
  | [], _, _+1 => 2^64 - 1
  | c :: r, size, i+1 => read_offset_loop r (((size <<< 8) ||| (c % 256)) % 2^64) i

/-- read_offset: a stream not opened in read mode reports -1L as uint64;
otherwise eight bytes are consumed from the file. -/
def read_offset (mode : Char) (file : List Nat) : Nat :=
  if mode ≠ 'r' then 2^64 - 1 else read_offset_loop file 0 8

/-- write_offset including its mode check: in any mode other than write the
function writes nothing and returns EOF (modelled as none). -/
def write_offset (mode : Char) (size : Nat) : Option (List Nat) :=
  if mode ≠ 'w' then none else some (write_offset_bytes size)

/-! ## List index helpers -/

section Helpers
variable {α : Type}

lemma getD_set_self : ∀ (l : List α) (i : Nat) (a d : α), i < l.length → (l.set i a).getD i d = a
  | [], i, a, d, h => by simp at h
  | _x :: _t, 0, _a, _d, _h => rfl
  | _x :: t, i+1, a, d, h => getD_set_self t i a d (by simpa using h)

lemma getD_set_ne : ∀ (l : List α) (i j : Nat) (a d : α), i ≠ j →
    (l.set i a).getD j d = l.getD j d
  | [], _i, _j, _a, _d, _h => rfl
  | _x :: _t, 0, 0, _a, _d, h => absurd rfl h
  | _x :: _t, 0, _j+1, _a, _d, _h => rfl
  | _x :: _t, _i+1, 0, _a, _d, _h => rfl
  | _x :: t, i+1, j+1, a, d, h => getD_set_ne t i j a d (by omega)

lemma set_getD_self : ∀ (l : List α) (i : Nat) (d : α), i < l.length → l.set i (l.getD i d) = l
  | [], i, d, h => by simp at h
  | _x :: _t, 0, _d, _h => rfl
  | x :: t, i+1, d, h => by
    have ih := set_getD_self t i d (by simpa using h)
    show x :: t.set i ((x :: t).getD (i+1) d) = x :: t
    rw [show (x :: t).getD (i+1) d = t.getD i d from rfl, ih]

lemma cons_set_perm : ∀ (t : List α) (k : Nat) (x y : α), k < t.length →
    (x :: t.set k y).Perm (y :: t.set k x)
  | [], k, x, y, h => by simp at h
  | _a :: t, 0, x, y, _h => by simpa using List.Perm.swap y x t
  | a :: t, k+1, x, y, h => by
    have ih := cons_set_perm t k x y (by simpa using h)
    have s1 : (x :: a :: t.set k y).Perm (a :: x :: t.set k y) := List.Perm.swap a x _
    have s2 : (a :: x :: t.set k y).Perm (a :: y :: t.set k x) := ih.cons a
    have s3 : (a :: y :: t.set k x).Perm (y :: a :: t.set k x) := List.Perm.swap y a _
    exact (s1.trans s2).trans s3

lemma set_set_perm : ∀ (l : List α) (i j : Nat) (a b : α), i < j → j < l.length →
    ((l.set i a).set j b).Perm ((l.set i b).set j a)
  | [], i, j, a, b, hij, hj => by simp at hj
  | _x :: t, 0, j+1, a, b, _hij, hj => by
    simp only [List.set]
    exact cons_set_perm t j a b (by simpa using hj)
  | x :: t, i+1, j+1, a, b, hij, hj => by
    simp only [List.set]
    exact (set_set_perm t i j a b (by omega) (by simpa using hj)).cons x

lemma getD_append_left : ∀ (l m : List α) (i : Nat) (d : α), i < l.length →
    ((l ++ m).getD i d) = l.getD i d
  | [], m, i, d, h => by simp at h
  | _x :: _t, _m, 0, _d, _h => rfl
  | _x :: t, m, i+1, d, h => getD_append_left t m i d (by simpa using h)

lemma getD_append_at : ∀ (l : List α) (n d : α), ((l ++ [n]).getD l.length d) = n
  | [], _n, _d => rfl
  | _x :: t, n, d => getD_append_at t n d

lemma getD_dropLast : ∀ (l : List α) (i : Nat) (d : α), i + 1 < l.length →
    (l.dropLast.getD i d) = l.getD i d
  | [], i, d, h => by simp at h
  | [_x], i, d, h => by simp at h
  | _x :: _y :: _t, 0, _d, _h => rfl
  | _x :: y :: t, i+1, d, h => getD_dropLast (y :: t) i d (by simpa using h)

lemma getD_mem : ∀ (l : List α) (j : Nat) (d : α), j < l.length → l.getD j d ∈ l
  | [], j, d, h => by simp at h
  | x :: t, 0, _d, _h => List.mem_cons_self x t
  | x :: t, j+1, d, h => List.mem_cons_of_mem x (getD_mem t j d (by simpa using h))

lemma eq_dropLast_append_getLastD (l : List α) (d : α) (h : l ≠ []) :
    l = l.dropLast ++ [l.getLastD d] := by
  conv_lhs => rw [← List.dropLast_append_getLast h]
  rw [List.getLastD_eq_getLast?, List.getLast?_eq_getLast _ h]
  rfl

lemma getD_eq_getD_of_lt (l : List α) (i : Nat) (d d' : α) (h : i < l.length) :
    l.getD i d = l.getD i d' := by
  rw [List.getD_eq_getElem?_getD, List.getD_eq_getElem?_getD, List.getElem?_eq_getElem h]
  rfl

end Helpers

/-! ## Comparator order lemmas -/

lemma comparator_le_iff (x y : TreeNode) : comparator x y ≤ 0 ↔
    x.freqv < y.freqv ∨ (x.freqv = y.freqv ∧ x.freqc ≤ y.freqc) := by
  unfold comparator
  split_ifs <;> omega

lemma comparator_lt_iff (x y : TreeNode) : comparator x y < 0 ↔
    x.freqv < y.freqv ∨ (x.freqv = y.freqv ∧ x.freqc < y.freqc) := by
  unfold comparator
  split_ifs <;> omega

lemma comparator_pos_iff (x y : TreeNode) : comparator x y > 0 ↔
    y.freqv < x.freqv ∨ (x.freqv = y.freqv ∧ y.freqc < x.freqc) := by
  unfold comparator
  split_ifs <;> omega

lemma comparator_refl (x : TreeNode) : comparator x x ≤ 0 := by
  rw [comparator_le_iff]; omega

lemma comparator_trans {x y z : TreeNode} (h1 : comparator x y ≤ 0) (h2 : comparator y z ≤ 0) :
    comparator x z ≤ 0 := by
  rw [comparator_le_iff] at h1 h2 ⊢
  omega

lemma comparator_le_of_not_pos {x y : TreeNode} (h : ¬ comparator x y > 0) :
    comparator x y ≤ 0 := by
  omega

lemma comparator_antisym {x y : TreeNode} (h : comparator x y > 0) :
    comparator y x ≤ 0 := by
  rw [comparator_pos_iff] at h
  rw [comparator_le_iff]
  omega

lemma comparator_le_of_lt {x y : TreeNode} (h : comparator x y < 0) : comparator x y ≤ 0 :=
  le_of_lt h

lemma comparator_le_of_not_lt {x y : TreeNode} (h : ¬ comparator x y < 0) :
    comparator y x ≤ 0 := by
  rw [comparator_lt_iff] at h
  rw [comparator_le_iff]
  omega

/-! ## Permutation facts for the sift procedures -/

lemma perm_bubble_up_aux : ∀ (arr : List TreeNode) (src : TreeNode) (i : Nat),
    i < arr.length → (bubble_up_aux arr src i).Perm (arr.set i src) := by
  intro arr src i
  induction arr, src, i using bubble_up_aux.induct with
  | case1 arr src =>
    intro _h
    rw [bubble_up_aux, if_pos rfl]
  | case2 arr src i hne hgt ih =>
    intro h
    rw [bubble_up_aux, if_neg hne, if_pos hgt]
    have hp : (i-1)/2 < arr.length := by omega
    have ih' := ih (by simpa using hp)
    refine ih'.trans ?_
    rw [List.set_comm _ _ _ (show i ≠ (i-1)/2 by omega)]
    have hswap := set_set_perm arr ((i-1)/2) i src (arr.getD ((i-1)/2) .null) (by omega) h
    rwa [set_getD_self arr ((i-1)/2) .null hp] at hswap
  | case3 arr src i hne hgt =>
    intro _h
    rw [bubble_up_aux, if_neg hne, if_neg hgt]

lemma perm_bubble_down_aux : ∀ (arr : List TreeNode) (src : TreeNode) (i endd : Nat),
    i < arr.length → endd ≤ arr.length →
    (bubble_down_aux arr src i endd).Perm (arr.set i src) := by
  intro arr src i endd
  induction arr, src, i, endd using bubble_down_aux.induct with
  | case1 arr src i endd h hlt =>
    intro _hi _he
    rw [bubble_down_aux, dif_pos h, if_pos hlt]
  | case2 arr src i endd h hlt ih =>
    intro hi he
    rw [bubble_down_aux, dif_pos h, if_neg hlt]
    have hm_gt := minChild_gt arr i endd
    have hm_lt : minChild arr i endd < arr.length :=
      lt_of_lt_of_le (minChild_lt arr i endd h) he
    have ih' := ih (by simpa using hm_lt) (by simpa using he)
    refine ih'.trans ?_
    have hswap := set_set_perm arr i (minChild arr i endd)
      (arr.getD (minChild arr i endd) .null) src hm_gt hm_lt
    refine hswap.trans ?_
    have hgd : (arr.set i src).getD (minChild arr i endd) .null
        = arr.getD (minChild arr i endd) .null :=
      getD_set_ne arr i (minChild arr i endd) src .null (by omega)
    rw [← hgd, set_getD_self (arr.set i src) (minChild arr i endd) .null (by simpa using hm_lt)]
  | case3 arr src i endd h =>
    intro _hi _he
    rw [bubble_down_aux, dif_neg h]

lemma pqueue_enqueue_perm (pq : List TreeNode) (n : TreeNode) (h : pq.length < MAXSIZE) :
    (pqueue_enqueue pq n).Perm (pq ++ [n]) := by
  unfold pqueue_enqueue
  rw [if_neg (by omega)]
  unfold bubble_up
  have hlen : pq.length < (pq ++ [n]).length := by simp
  have hperm := perm_bubble_up_aux (pq ++ [n]) ((pq ++ [n]).getD pq.length .null) pq.length hlen
  rwa [set_getD_self (pq ++ [n]) pq.length .null hlen] at hperm

lemma pqueue_dequeue_perm {pq : List TreeNode} {x : TreeNode} {rest : List TreeNode}
    (h : pqueue_dequeue pq = some (x, rest)) : pq.Perm (x :: rest) := by
  unfold pqueue_dequeue at h
  by_cases hl : pq.length = 0
  · rw [if_pos hl] at h; cases h
  · rw [if_neg hl] at h
    injection h with h'
    injection h' with h1 h2
    by_cases hone : pq.length = 1
    · match pq, hone with
      | [a], _ =>
        rw [← h1, ← h2]
        simp [bubble_down, bubble_down_aux]
    · have hlen2 : 2 ≤ pq.length := by omega
      have hdl : pq.dropLast.length = pq.length - 1 := by simp
      have harr0 : ((pq.dropLast).set 0 (pq.getLastD .null)).length = pq.length - 1 := by
        simp [hdl]
      have hrest : rest.Perm ((pq.dropLast).set 0 (pq.getLastD .null)) := by
        rw [← h2]
        unfold bubble_down
        have hp := perm_bubble_down_aux ((pq.dropLast).set 0 (pq.getLastD .null))
          (((pq.dropLast).set 0 (pq.getLastD .null)).getD 0 .null) 0 (pq.length - 1)
          (by omega) (by omega)
        rwa [set_getD_self ((pq.dropLast).set 0 (pq.getLastD .null)) 0 .null (by omega)] at hp
      have hx : x = pq.dropLast.getD 0 .null := by
        rw [← h1]
        have h0 : (0:Nat) < pq.dropLast.length := by omega
        rw [← getD_dropLast pq 0 .null (by omega)]
      have hsplit : pq = pq.dropLast ++ [pq.getLastD .null] :=
        eq_dropLast_append_getLastD pq .null (by intro hnil; rw [hnil] at hl; exact hl rfl)
      have hstep1 : (x :: rest).Perm (x :: (pq.dropLast).set 0 (pq.getLastD .null)) :=
        hrest.cons x
      have hstep2 : (x :: (pq.dropLast).set 0 (pq.getLastD .null)).Perm
          ((pq.getLastD .null) :: (pq.dropLast).set 0 x) := by
        rw [hx]
        exact cons_set_perm pq.dropLast 0 (pq.dropLast.getD 0 .null) (pq.getLastD .null)
          (by omega)
      have hstep3 : (pq.dropLast).set 0 x = pq.dropLast := by
        rw [hx]
        exact set_getD_self pq.dropLast 0 .null (by omega)
      have hstep4 : ((pq.getLastD .null) :: pq.dropLast).Perm
          (pq.dropLast ++ [pq.getLastD .null]) := by
        exact (List.perm_append_singleton _ _).symm
      have : (x :: rest).Perm pq := by
        refine (hstep1.trans ?_)
        rw [← hsplit] at hstep4
        refine hstep2.trans ?_
        rw [hstep3]
        exact hstep4
      exact this.symm

lemma mem_dequeue_fst {pq : List TreeNode} {x : TreeNode} {rest : List TreeNode}
    (h : pqueue_dequeue pq = some (x, rest)) : x ∈ pq :=
  (pqueue_dequeue_perm h).mem_iff.mpr (List.mem_cons_self x rest)

lemma mem_of_mem_dequeue_rest {pq : List TreeNode} {x y : TreeNode} {rest : List TreeNode}
    (h : pqueue_dequeue pq = some (x, rest)) (hy : y ∈ rest) : y ∈ pq :=
  (pqueue_dequeue_perm h).mem_iff.mpr (List.mem_cons_of_mem x hy)

lemma mem_enqueue {pq : List TreeNode} {n y : TreeNode}
    (hy : y ∈ pqueue_enqueue pq n) : y ∈ pq ∨ y = n := by
  unfold pqueue_enqueue at hy
  split at hy
  · exact Or.inl hy
  · have hperm := pqueue_enqueue_perm pq n (by omega)
    rw [pqueue_enqueue, if_neg (by omega)] at hperm
    have := hperm.mem_iff.mp hy
    rcases List.mem_append.mp this with h1 | h1
    · exact Or.inl h1
    · exact Or.inr (by simpa using h1)

/-! ## Heap invariant -/

/-- The binary min-heap ordering invariant of pqueue.c: each array slot
orders at or below both of its children under the comparator. -/
def heapInv (l : List TreeNode) : Prop :=
  ∀ p, p < l.length → ∀ j, j < l.length → (j = 2*p+1 ∨ j = 2*p+2) →
    comparator (l.getD p .null) (l.getD j .null) ≤ 0

instance heapInv_decidable (l : List TreeNode) : Decidable (heapInv l) := by
  unfold heapInv
  infer_instance

lemma heapInv_nil : heapInv [] := by
  intro p hp
  simp at hp

lemma heapInv_root_le (l : List TreeNode) (h : heapInv l) :
    ∀ j, j < l.length → comparator (l.getD 0 .null) (l.getD j .null) ≤ 0 := by
  intro j
  induction j using Nat.strong_induction_on with
  | _ j ih =>
    intro hj
    match j with
    | 0 => exact comparator_refl _
    | j+1 =>
      have hpar : j+1 = 2*((j+1-1)/2)+1 ∨ j+1 = 2*((j+1-1)/2)+2 := by omega
      have hplt : (j+1-1)/2 < j+1 := by omega
      have h1 := ih ((j+1-1)/2) hplt (by omega)
      have h2 := h ((j+1-1)/2) (by omega) (j+1) hj hpar
      exact comparator_trans h1 h2

lemma heapInv_root_min (l : List TreeNode) (h : heapInv l) :
    ∀ y ∈ l, comparator (l.getD 0 .null) y ≤ 0 := by
  intro y hy
  obtain ⟨j, hj, hget⟩ := List.mem_iff_getElem.mp hy
  have : l.getD j .null = y := by
    rw [List.getD_eq_getElem?_getD, List.getElem?_eq_getElem hj]
    simpa using hget
  rw [← this]
  exact heapInv_root_le l h j hj

/-- All parent-child orderings hold except those in or out of slot i, whose
content is in flight during a sift. -/
def edgesExcept (l : List TreeNode) (i : Nat) : Prop :=
  ∀ p j, j < l.length → (j = 2*p+1 ∨ j = 2*p+2) → p ≠ i → j ≠ i →
    comparator (l.getD p .null) (l.getD j .null) ≤ 0

lemma bubble_up_aux_heapInv : ∀ (arr : List TreeNode) (src : TreeNode) (i : Nat),
    i < arr.length →
    edgesExcept arr i →
    (∀ j, j < arr.length → (j = 2*i+1 ∨ j = 2*i+2) → comparator src (arr.getD j .null) ≤ 0) →
    (i ≠ 0 → ∀ j, j < arr.length → (j = 2*i+1 ∨ j = 2*i+2) →
        comparator (arr.getD ((i-1)/2) .null) (arr.getD j .null) ≤ 0) →
    heapInv (bubble_up_aux arr src i) := by
  intro arr src i
  induction arr, src, i using bubble_up_aux.induct with
  | case1 arr src =>
    intro hi hA hB _hC
    rw [bubble_up_aux, if_pos rfl]
    intro p hp j hj hedge
    rw [List.length_set] at hp hj
    have hj0 : j ≠ 0 := by omega
    rw [getD_set_ne arr 0 j src .null (by omega)]
    by_cases hp0 : p = 0
    · subst hp0
      rw [getD_set_self arr 0 src .null hi]
      exact hB j hj hedge
    · rw [getD_set_ne arr 0 p src .null (by omega)]
      exact hA p j hj hedge hp0 hj0
  | case2 arr src i hne hgt ih =>
    intro hi hA hB hC
    rw [bubble_up_aux, if_neg hne, if_pos hgt]
    have hplt : (i-1)/2 < i := by omega
    have hpar : (i-1)/2 < arr.length := by omega
    refine ih (by simpa using hpar) ?_ ?_ ?_
    · -- edgesExcept of the shifted array at the parent slot
      intro p j hj hedge hpne hjne
      rw [List.length_set] at hj
      by_cases hpi : p = i
      · subst hpi
        have hji : j ≠ p := by omega
        rw [getD_set_self arr p (arr.getD (((p:Nat)-1)/2) .null) .null hi,
            getD_set_ne arr p j _ .null (by omega)]
        exact hC hne j hj hedge
      · by_cases hji : j = i
        · exact absurd (by omega : p = (i-1)/2) hpne
        · rw [getD_set_ne arr i p _ .null (by omega), getD_set_ne arr i j _ .null (by omega)]
          exact hA p j hj hedge hpi hji
    · -- src orders below the children of the parent slot
      intro j hj hedge
      rw [List.length_set] at hj
      have hle : comparator src (arr.getD ((i-1)/2) .null) ≤ 0 := comparator_antisym hgt
      by_cases hji : j = i
      · subst hji
        rw [getD_set_self arr j _ .null hi]
        exact hle
      · rw [getD_set_ne arr i j _ .null (by omega)]
        have hedge' : j = 2*((i-1)/2)+1 ∨ j = 2*((i-1)/2)+2 := hedge
        have hchild : comparator (arr.getD ((i-1)/2) .null) (arr.getD j .null) ≤ 0 :=
          hA ((i-1)/2) j hj hedge' (by omega) hji
        exact comparator_trans hle hchild
    · -- the grandparent orders below the children of the parent slot
      intro hp0 j hj hedge
      rw [List.length_set] at hj
      have hgp : ((i-1)/2-1)/2 ≠ i := by omega
      rw [getD_set_ne arr i (((i-1)/2-1)/2) _ .null (by omega)]
      have hgpe : (i-1)/2 = 2*(((i-1)/2-1)/2)+1 ∨ (i-1)/2 = 2*(((i-1)/2-1)/2)+2 := by omega
      have hgpar : comparator (arr.getD (((i-1)/2-1)/2) .null) (arr.getD ((i-1)/2) .null) ≤ 0 :=
        hA (((i-1)/2-1)/2) ((i-1)/2) hpar hgpe (by omega) (by omega)
      by_cases hji : j = i
      · subst hji
        rw [getD_set_self arr j _ .null hi]
        exact hgpar
      · rw [getD_set_ne arr i j _ .null (by omega)]
        have hchild : comparator (arr.getD ((i-1)/2) .null) (arr.getD j .null) ≤ 0 :=
          hA ((i-1)/2) j hj hedge (by omega) hji
        exact comparator_trans hgpar hchild
  | case3 arr src i hne hgt =>
    intro hi hA hB _hC
    rw [bubble_up_aux, if_neg hne, if_neg hgt]
    intro p hp j hj hedge
    rw [List.length_set] at hp hj
    by_cases hpi : p = i
    · subst hpi
      have hji : j ≠ p := by omega
      rw [getD_set_self arr p src .null hi, getD_set_ne arr p j src .null (by omega)]
      exact hB j hj hedge
    · by_cases hji : j = i
      · subst hji
        have hppar : p = (j-1)/2 := by omega
        rw [getD_set_ne arr j p src .null (by omega), getD_set_self arr j src .null hi, hppar]
        exact comparator_le_of_not_pos hgt
      · rw [getD_set_ne arr i p src .null (by omega), getD_set_ne arr i j src .null (by omega)]
        exact hA p j hj hedge hpi hji

lemma minChild_le (arr : List TreeNode) (i endd : Nat) (_h : 2*i+1 < endd) :
    ∀ j, j < endd → (j = 2*i+1 ∨ j = 2*i+2) →
    comparator (arr.getD (minChild arr i endd) .null) (arr.getD j .null) ≤ 0 := by
  intro j hj hedge
  unfold minChild
  by_cases hc : 2*i+2 < endd ∧ comparator (arr.getD (2*i+2) .null) (arr.getD (2*i+1) .null) < 0
  · rw [if_pos hc]
    rcases hedge with he | he
    · subst he; exact le_of_lt hc.2
    · subst he; exact comparator_refl _
  · rw [if_neg hc]
    rcases hedge with he | he
    · subst he; exact comparator_refl _
    · subst he
      have hnl : ¬ comparator (arr.getD (2*i+2) .null) (arr.getD (2*i+1) .null) < 0 := by
        intro hlt; exact hc ⟨hj, hlt⟩
      exact comparator_le_of_not_lt hnl

lemma bubble_down_aux_heapInv : ∀ (arr : List TreeNode) (src : TreeNode) (i endd : Nat),
    endd = arr.length →
    i < arr.length →
    edgesExcept arr i →
    (i ≠ 0 → comparator (arr.getD ((i-1)/2) .null) src ≤ 0) →
    (i ≠ 0 → ∀ j, j < arr.length → (j = 2*i+1 ∨ j = 2*i+2) →
        comparator (arr.getD ((i-1)/2) .null) (arr.getD j .null) ≤ 0) →
    heapInv (bubble_down_aux arr src i endd) := by
  intro arr src i endd
  induction arr, src, i, endd using bubble_down_aux.induct with
  | case1 arr src i endd h hlt =>
    intro heq hi hA hB _hC
    rw [bubble_down_aux, dif_pos h, if_pos hlt]
    intro p hp j hj hedge
    rw [List.length_set] at hp hj
    by_cases hpi : p = i
    · subst hpi
      have hji : j ≠ p := by omega
      rw [getD_set_self arr p src .null hi, getD_set_ne arr p j src .null (by omega)]
      have hm : comparator (arr.getD (minChild arr p endd) .null) (arr.getD j .null) ≤ 0 :=
        minChild_le arr p endd h j (by omega) hedge
      exact comparator_trans (le_of_lt hlt) hm
    · by_cases hji : j = i
      · subst hji
        have hppar : p = (j-1)/2 := by omega
        rw [getD_set_ne arr j p src .null (by omega), getD_set_self arr j src .null hi, hppar]
        exact hB (by omega)
      · rw [getD_set_ne arr i p src .null (by omega), getD_set_ne arr i j src .null (by omega)]
        exact hA p j hj hedge hpi hji
  | case2 arr src i endd h hlt ih =>
    intro heq hi hA _hB hC
    rw [bubble_down_aux, dif_pos h, if_neg hlt]
    have hm_gt := minChild_gt arr i endd
    have hm_lt : minChild arr i endd < arr.length := heq ▸ minChild_lt arr i endd h
    have hm_cases := minChild_cases arr i endd
    refine ih (by simp [heq]) (by simpa using hm_lt) ?_ ?_ ?_
    · -- edgesExcept of the shifted array at the minimal-child slot
      intro p j hj hedge hpm hjm
      rw [List.length_set] at hj
      by_cases hji : j = i
      · subst hji
        have hne : j ≠ 0 := by omega
        have hppar : p = (j-1)/2 := by omega
        rw [getD_set_self arr j _ .null hi,
            getD_set_ne arr j p _ .null (by omega), hppar]
        exact hC hne (minChild arr j endd) hm_lt hm_cases
      · by_cases hpi : p = i
        · subst hpi
          rw [getD_set_self arr p _ .null hi, getD_set_ne arr p j _ .null (by omega)]
          exact minChild_le arr p endd h j (by omega) hedge
        · rw [getD_set_ne arr i p _ .null (by omega), getD_set_ne arr i j _ .null (by omega)]
          exact hA p j hj hedge hpi hji
    · -- the parent of the new hole orders below the element in flight
      intro _hm0
      have hmpar : (minChild arr i endd - 1)/2 = i := by omega
      rw [hmpar, getD_set_self arr i _ .null hi]
      exact comparator_le_of_not_lt hlt
    · -- the parent of the new hole orders below the children of the new hole
      intro _hm0 j hj hedge
      rw [List.length_set] at hj
      have hmpar : (minChild arr i endd - 1)/2 = i := by omega
      have hji : j ≠ i := by omega
      rw [hmpar, getD_set_self arr i _ .null hi, getD_set_ne arr i j _ .null (by omega)]
      exact hA (minChild arr i endd) j hj hedge (by omega) hji
  | case3 arr src i endd h =>
    intro heq hi hA hB _hC
    rw [bubble_down_aux, dif_neg h]
    intro p hp j hj hedge
    rw [List.length_set] at hp hj
    by_cases hpi : p = i
    · subst hpi
      exact absurd hj (by omega)
    · by_cases hji : j = i
      · subst hji
        have hppar : p = (j-1)/2 := by omega
        rw [getD_set_ne arr j p src .null (by omega), getD_set_self arr j src .null hi, hppar]
        exact hB (by omega)
      · rw [getD_set_ne arr i p src .null (by omega), getD_set_ne arr i j src .null (by omega)]
        exact hA p j hj hedge hpi hji

lemma pqueue_enqueue_heapInv {pq : List TreeNode} {n : TreeNode} (h : heapInv pq) :
    heapInv (pqueue_enqueue pq n) := by
  unfold pqueue_enqueue
  split
  · exact h
  · unfold bubble_up
    refine bubble_up_aux_heapInv (pq ++ [n]) ((pq ++ [n]).getD pq.length .null) pq.length
      (by simp) ?_ ?_ ?_
    · intro p j hj hedge hpne hjne
      rw [List.length_append, List.length_cons, List.length_nil] at hj
      have hjlt : j < pq.length := by omega
      have hplt : p < pq.length := by omega
      rw [getD_append_left pq [n] p .null hplt, getD_append_left pq [n] j .null hjlt]
      exact h p hplt j hjlt hedge
    · intro j hj hedge
      rw [List.length_append, List.length_cons, List.length_nil] at hj
      omega
    · intro _h0 j hj hedge
      rw [List.length_append, List.length_cons, List.length_nil] at hj
      omega

lemma pqueue_dequeue_heapInv {pq : List TreeNode} {x : TreeNode} {rest : List TreeNode}
    (hinv : heapInv pq) (h : pqueue_dequeue pq = some (x, rest)) : heapInv rest := by
  unfold pqueue_dequeue at h
  by_cases hl : pq.length = 0
  · rw [if_pos hl] at h; cases h
  · rw [if_neg hl] at h
    injection h with h'
    injection h' with h1 h2
    by_cases hone : pq.length = 1
    · match pq, hone with
      | [a], _ =>
        rw [← h2]
        simpa [bubble_down, bubble_down_aux] using heapInv_nil
    · have hlen2 : 2 ≤ pq.length := by omega
      have harr0 : ((pq.dropLast).set 0 (pq.getLastD .null)).length = pq.length - 1 := by
        simp
      rw [← h2]
      unfold bubble_down
      refine bubble_down_aux_heapInv ((pq.dropLast).set 0 (pq.getLastD .null)) _ 0
        (pq.length - 1) (by omega) (by omega) ?_ ?_ ?_
      · intro p j hj hedge hp0 hj0
        rw [harr0] at hj
        have hplt : p < pq.length - 1 := by omega
        have e1 : ((pq.dropLast).set 0 (pq.getLastD .null)).getD p .null = pq.getD p .null := by
          rw [getD_set_ne pq.dropLast 0 p _ .null (by omega),
              getD_dropLast pq p .null (by omega)]
        have e2 : ((pq.dropLast).set 0 (pq.getLastD .null)).getD j .null = pq.getD j .null := by
          rw [getD_set_ne pq.dropLast 0 j _ .null (by omega),
              getD_dropLast pq j .null (by omega)]
        rw [e1, e2]
        exact hinv p (by omega) j (by omega) hedge
      · intro h0; exact absurd rfl h0
      · intro h0; exact absurd rfl h0

lemma pqueue_dequeue_min {pq : List TreeNode} {x : TreeNode} {rest : List TreeNode}
    (hinv : heapInv pq) (h : pqueue_dequeue pq = some (x, rest)) :
    ∀ y ∈ pq, comparator x y ≤ 0 := by
  have hx : x = pq.getD 0 .null := by
    unfold pqueue_dequeue at h
    by_cases hl : pq.length = 0
    · rw [if_pos hl] at h; cases h
    · rw [if_neg hl] at h
      injection h with h'
      injection h' with h1 _h2
      exact h1.symm
  rw [hx]
  exact heapInv_root_min pq hinv

/-! ## Facts about merge_nodes -/

lemma pqueue_enqueue_length {pq : List TreeNode} {n : TreeNode} (h : pq.length < MAXSIZE) :
    (pqueue_enqueue pq n).length = pq.length + 1 := by
  unfold pqueue_enqueue
  rw [if_neg (by omega), bubble_up, length_bubble_up_aux]
  simp

lemma pqueue_enqueue_length_le {pq : List TreeNode} {n : TreeNode} (h : pq.length ≤ MAXSIZE) :
    (pqueue_enqueue pq n).length ≤ MAXSIZE := by
  unfold pqueue_enqueue
  split
  · exact h
  · rw [bubble_up, length_bubble_up_aux]
    simp only [List.length_append, List.length_cons, List.length_nil]
    omega

lemma pqueue_dequeue_of_ne_nil {pq : List TreeNode} (h : 1 ≤ pq.length) :
    pqueue_dequeue pq = some (pq.getD 0 .null,
      bubble_down ((pq.dropLast).set 0 (pq.getLastD .null)) 0 (pq.length - 1)) := by
  unfold pqueue_dequeue
  rw [if_neg (by omega)]

lemma pqueue_dequeue_ne_none {pq : List TreeNode} (h : 1 ≤ pq.length) :
    pqueue_dequeue pq ≠ none := by
  rw [pqueue_dequeue_of_ne_nil h]
  intro hc
  cases hc

lemma merge_loop_eq_stop {pq : List TreeNode} (h : ¬ pq.length > 1) : merge_loop pq = pq := by
  rw [merge_loop, dif_neg h]

lemma merge_loop_eq_step {pq pq1 pq2 : List TreeNode} {l r : TreeNode} (hgt : pq.length > 1)
    (h1 : pqueue_dequeue pq = some (l, pq1)) (h2 : pqueue_dequeue pq1 = some (r, pq2)) :
    merge_loop pq
      = merge_loop (pqueue_enqueue pq2 (TreeNode.node ⟨l.freqv + r.freqv, 0⟩ .INTERNAL l r)) := by
  rw [merge_loop, dif_pos hgt]
  split
  · rename_i heq; rw [h1] at heq; cases heq
  · rename_i l' pq1' heq
    rw [h1] at heq
    injection heq with heq'
    injection heq' with hx hr
    subst hx; subst hr
    split
    · rename_i heq2; rw [h2] at heq2; cases heq2
    · rename_i r' pq2' heq2
      rw [h2] at heq2
      injection heq2 with heq2'
      injection heq2' with hy hr2
      subst hy; subst hr2
      rfl

lemma merge_loop_mem (P : TreeNode → Prop)
    (hP : ∀ l r, P l → P r → P (TreeNode.node ⟨l.freqv + r.freqv, 0⟩ .INTERNAL l r)) :
    ∀ pq, (∀ x ∈ pq, P x) → ∀ y ∈ merge_loop pq, P y := by
  intro pq
  induction pq using merge_loop.induct with
  | case1 pq hgt h1 =>
    exact absurd h1 (pqueue_dequeue_ne_none (by omega))
  | case2 pq hgt l pq1 h1 h2 =>
    have e1 := length_dequeue h1
    exact absurd h2 (pqueue_dequeue_ne_none (by omega))
  | case3 pq hgt l pq1 h1 r pq2 h2 ih =>
    intro hall
    rw [merge_loop_eq_step hgt h1 h2]
    refine ih ?_
    intro y hy
    rcases mem_enqueue hy with hmem | heq
    · exact hall y (mem_of_mem_dequeue_rest h1 (mem_of_mem_dequeue_rest h2 hmem))
    · subst heq
      exact hP l r (hall l (mem_dequeue_fst h1))
        (hall r (mem_of_mem_dequeue_rest h1 (mem_dequeue_fst h2)))
  | case4 pq hgt =>
    intro hall
    rw [merge_loop_eq_stop hgt]
    exact hall

lemma merge_loop_length : ∀ pq : List TreeNode,
    1 ≤ pq.length → pq.length ≤ MAXSIZE →
    1 ≤ (merge_loop pq).length ∧ (merge_loop pq).length ≤ MAXSIZE := by
  intro pq
  induction pq using merge_loop.induct with
  | case1 pq hgt h1 =>
    exact absurd h1 (pqueue_dequeue_ne_none (by omega))
  | case2 pq hgt l pq1 h1 h2 =>
    have e1 := length_dequeue h1
    exact absurd h2 (pqueue_dequeue_ne_none (by omega))
  | case3 pq hgt l pq1 h1 r pq2 h2 ih =>
    intro hl hu
    have e1 := length_dequeue h1
    have e2 := length_dequeue h2
    rw [merge_loop_eq_step hgt h1 h2]
    have hlen : (pqueue_enqueue pq2
        (TreeNode.node ⟨l.freqv + r.freqv, 0⟩ .INTERNAL l r)).length = pq.length - 1 := by
      rw [pqueue_enqueue_length (by unfold MAXSIZE at hu ⊢; omega)]
      omega
    have hres := ih (by omega) (by omega)
    omega
  | case4 pq hgt =>
    intro hl hu
    rw [merge_loop_eq_stop hgt]
    exact ⟨hl, hu⟩

/-- Any property of trees closed under the internal-node constructor of
merge_nodes and satisfied by the sentinel node transfers from the queue
elements to the merged result. -/
lemma merge_nodes_P (P : TreeNode → Prop)
    (hP : ∀ l r, P l → P r → P (TreeNode.node ⟨l.freqv + r.freqv, 0⟩ .INTERNAL l r))
    (hsent : P (TreeNode.node ⟨-1, 0⟩ .INTERNAL .null .null))
    (pq : List TreeNode) (h1 : 1 ≤ pq.length) (h2 : pq.length ≤ MAXSIZE)
    (hall : ∀ x ∈ pq, P x) : P (merge_nodes pq) := by
  unfold merge_nodes
  set pq' := if pq.length = 1 then
      pqueue_enqueue pq (TreeNode.node ⟨-1, 0⟩ .INTERNAL .null .null)
    else pq with hpq'
  have hall' : ∀ x ∈ pq', P x := by
    rw [hpq']
    split
    · intro x hx
      rcases mem_enqueue hx with hmem | heq
      · exact hall x hmem
      · subst heq; exact hsent
    · exact hall
  have hlen' : 1 ≤ pq'.length ∧ pq'.length ≤ MAXSIZE := by
    rw [hpq']
    split
    · rw [pqueue_enqueue_length (by unfold MAXSIZE; omega)]
      unfold MAXSIZE
      omega
    · exact ⟨h1, h2⟩
  have hml := merge_loop_length pq' hlen'.1 hlen'.2
  have hmem := merge_loop_mem P hP pq' hall'
  rw [pqueue_dequeue_of_ne_nil hml.1]
  exact hmem _ (getD_mem (merge_loop pq') 0 .null (by omega))

/-! ## Tree predicates: count coherence (sumOK) and node types -/

/-- Every node with at least one child carries the sum of the counts of its
children (a missing child contributing zero); childless nodes are
unconstrained. -/
def sumOK : TreeNode → Bool
  | .null => true
  | .node _ _ .null .null => true
  | .node f _ l r => (f.v == l.freqv + r.freqv) && sumOK l && sumOK r

/-- Sum of the counts of the childless nodes of a tree. -/
def leafSum : TreeNode → Int
  | .null => 0
  | .node f _ .null .null => f.v
  | .node _ _ l r => leafSum l + leafSum r

lemma sumOK_node {l r : TreeNode} (hl : sumOK l = true) (hr : sumOK r = true) :
    sumOK (TreeNode.node ⟨l.freqv + r.freqv, 0⟩ .INTERNAL l r) = true := by
  cases l with
  | null =>
    cases r with
    | null => rfl
    | node fr tyr rl rr => simp [sumOK, hr, TreeNode.freqv]
  | node fl tyl ll lr =>
    cases r with
    | null => simp [sumOK, hl, TreeNode.freqv]
    | node fr tyr rl rr => simp [sumOK, hl, hr, TreeNode.freqv]

lemma freqv_eq_leafSum : ∀ t : TreeNode, sumOK t = true → t.freqv = leafSum t := by
  intro t
  induction t with
  | null => intro _h; rfl
  | node f ty l r ihl ihr =>
    intro h
    cases l with
    | null =>
      cases r with
      | null => rfl
      | node fr tyr rl rr =>
        simp only [sumOK, Bool.and_eq_true, beq_iff_eq] at h
        have hrr := ihr h.2
        show f.v = leafSum .null + leafSum (.node fr tyr rl rr)
        rw [← hrr, h.1.1]
        rfl
    | node fl tyl ll lr =>
      cases r with
      | null =>
        simp only [sumOK, Bool.and_eq_true, beq_iff_eq] at h
        have hl := ihl h.1.2
        show f.v = leafSum (.node fl tyl ll lr) + leafSum .null
        rw [← hl, h.1.1]
        show TreeNode.freqv _ + TreeNode.freqv .null
            = TreeNode.freqv (.node fl tyl ll lr) + 0
        rfl
      | node fr tyr rl rr =>
        simp only [sumOK, Bool.and_eq_true, beq_iff_eq] at h
        have hl := ihl (by exact h.1.2)
        have hr := ihr h.2
        show f.v = leafSum (.node fl tyl ll lr) + leafSum (.node fr tyr rl rr)
        rw [← hl, ← hr, h.1.1]

/-- True when every node of the tree has type INTERNAL (as every node built
by huffman.c does, since tree_new types nodes INTERNAL and create_tree_nodes
never overrides it). -/
def allInternal : TreeNode → Bool
  | .null => true
  | .node _ ty l r => (ty == NType.INTERNAL) && allInternal l && allInternal r

lemma ser_eq_nil_of_allInternal : ∀ t : TreeNode, allInternal t = true → ser t = [] := by
  intro t
  induction t with
  | null => intro _h; rfl
  | node f ty l r ihl ihr =>
    intro h
    simp only [allInternal, Bool.and_eq_true, beq_iff_eq] at h
    unfold ser
    rw [if_neg (by rw [h.1.1]; intro hc; cases hc), ihl h.1.2, ihr h.2]
    rfl

/-! ## Bit stream semantics -/

/-- The bytes pushed towards the file so far: file content plus buffered
bytes (flushing moves bytes from the second to the first). -/
def outBytes (s : WriteState) : List Nat := s.file ++ s.buf

/-- The bytes that a sequence of write-bit calls followed by close appends,
starting from accumulator state (byte, nbits); mirrors bits_io_write_bit and
the padding branch of bits_io_close. -/
def packPartial (byte nbits : Nat) : List Nat → List Nat
  | [] => if nbits > 0 then [(byte <<< (8 - nbits)) % 256] else []
  | b :: bs =>
    if nbits + 1 ≥ 8 then (((byte <<< 1) ||| b) % 256) :: packPartial 0 0 bs
    else packPartial (((byte <<< 1) ||| b) % 256) (nbits + 1) bs

lemma outBytes_flushW (s : WriteState) : outBytes (flushW s) = outBytes s := by
  unfold outBytes flushW
  simp

lemma packPartial_nil (byte nbits : Nat) :
    packPartial byte nbits [] = if nbits > 0 then [(byte <<< (8 - nbits)) % 256] else [] := rfl

lemma packPartial_cons (byte nbits b : Nat) (bs : List Nat) :
    packPartial byte nbits (b :: bs)
      = if nbits + 1 ≥ 8 then (((byte <<< 1) ||| b) % 256) :: packPartial 0 0 bs
        else packPartial (((byte <<< 1) ||| b) % 256) (nbits + 1) bs := rfl

lemma close_writeBits (bs : List Nat) : ∀ s : WriteState,
    bits_io_close_w (writeBits s bs) = outBytes s ++ packPartial s.byte s.nbits bs := by
  induction bs with
  | nil =>
    intro s
    show bits_io_close_w s = outBytes s ++ packPartial s.byte s.nbits []
    rw [packPartial_nil]
    unfold bits_io_close_w
    split
    · unfold flushW outBytes
      simp
    · unfold flushW outBytes
      simp
  | cons b bs ih =>
    intro s
    show bits_io_close_w (writeBits (bits_io_write_bit s b) bs)
        = outBytes s ++ packPartial s.byte s.nbits (b :: bs)
    rw [ih (bits_io_write_bit s b), packPartial_cons]
    by_cases h8 : s.nbits + 1 ≥ 8
    · rw [if_pos h8]
      by_cases hfull : s.buf.length ≥ BUF_SIZE
      · have hw : bits_io_write_bit s b = { byte := 0, nbits := 0, buf := (flushW s).buf ++ [((s.byte <<< 1) ||| b) % 256], file := (flushW s).file } := by
          unfold bits_io_write_bit
          rw [if_pos h8, if_pos hfull]
        rw [hw]
        unfold outBytes flushW
        simp
      · have hw : bits_io_write_bit s b = { byte := 0, nbits := 0, buf := s.buf ++ [((s.byte <<< 1) ||| b) % 256], file := s.file } := by
          unfold bits_io_write_bit
          rw [if_pos h8, if_neg hfull]
        rw [hw]
        unfold outBytes
        simp
    · rw [if_neg h8]
      have hw : bits_io_write_bit s b = { byte := ((s.byte <<< 1) ||| b) % 256, nbits := s.nbits + 1, buf := s.buf, file := s.file } := by
        unfold bits_io_write_bit
        rw [if_neg h8]
      rw [hw]
      rfl

/-- The bit sequence obtained from one byte by the read protocol: high bit
out, shift one in at the bottom mod 256, k times. -/
def byteBitsAux : Nat → Nat → List Nat
  | _, 0 => []
  | x, k+1 => (x >>> 7) :: byteBitsAux ((x <<< 1) % 256) k

def byteBits (b : Nat) : List Nat := byteBitsAux b 8

lemma readAll_eq_none {s : ReadState} (h : bits_io_read_bit s = none) : readAll s = [] := by
  rw [readAll]
  split
  · rfl
  · rename_i b s' heq
    rw [h] at heq
    cases heq

lemma readAll_eq_some {s : ReadState} {b : Nat} {s' : ReadState}
    (h : bits_io_read_bit s = some (b, s')) : readAll s = b :: readAll s' := by
  rw [readAll]
  split
  · rename_i heq
    rw [h] at heq
    cases heq
  · rename_i b2 s2 heq
    rw [h] at heq
    injection heq with heq'
    injection heq' with h1 h2
    rw [h1, h2]

lemma byteBitsAux_zero (x : Nat) : byteBitsAux x 0 = [] := rfl

lemma byteBitsAux_succ (x k : Nat) :
    byteBitsAux x (k+1) = (x >>> 7) :: byteBitsAux ((x <<< 1) % 256) k := rfl

lemma byteBits_eq (b : Nat) : byteBits b = (b >>> 7) :: byteBitsAux ((b <<< 1) % 256) 7 := rfl

lemma readAll_spec_aux : ∀ (n : Nat) (s : ReadState), readMeasure s ≤ n → s.nbits ≤ 8 →
    readAll s = byteBitsAux s.byte (8 - s.nbits)
      ++ (s.buf.drop s.index).flatMap byteBits
      ++ s.file.flatMap byteBits := by
  intro n
  induction n with
  | zero =>
    intro s hm hn
    unfold readMeasure at hm
    have hb : s.nbits = 8 := by omega
    have hf : s.file.length = 0 := by omega
    have hfile : s.file = [] := List.length_eq_zero.mp hf
    have hdrop : s.buf.drop s.index = [] := by
      apply List.drop_eq_nil_of_le
      omega
    rw [hb, hfile, hdrop]
    have hnone : bits_io_read_bit s = none := by
      unfold bits_io_read_bit
      rw [if_pos (by omega), if_pos (by omega)]
      unfold fill_buf
      rw [if_pos hf]
    rw [readAll_eq_none hnone]
    rfl
  | succ n ih =>
    intro s hm hn
    by_cases h8 : s.nbits ≥ 8
    · have hb : s.nbits = 8 := by omega
      by_cases hidx : s.index ≥ s.buf.length
      · have hdrop : s.buf.drop s.index = [] := List.drop_eq_nil_of_le hidx
        cases hfile : s.file with
        | nil =>
          have hnone : bits_io_read_bit s = none := by
            unfold bits_io_read_bit
            rw [if_pos h8, if_pos hidx]
            unfold fill_buf
            rw [if_pos (by rw [hfile]; rfl)]
          rw [readAll_eq_none hnone, hb, hdrop]
          rfl
        | cons f0 frest =>
          have hfill : fill_buf s = some { s with buf := s.file.take BUF_SIZE, file := s.file.drop BUF_SIZE, index := 0 } := by
            unfold fill_buf
            rw [if_neg (by rw [hfile]; simp)]
          have htake : s.file.take BUF_SIZE = f0 :: frest.take (BUF_SIZE - 1) := by
            rw [hfile]
            rfl
          have hsome : bits_io_read_bit s = some (f0 >>> 7, { s with buf := s.file.take BUF_SIZE, file := s.file.drop BUF_SIZE, index := 1, byte := (f0 <<< 1) % 256, nbits := 1 }) := by
            unfold bits_io_read_bit
            rw [if_pos h8, if_pos hidx, hfill]
            have hget : (s.file.take BUF_SIZE).getD 0 0 = f0 := by
              rw [htake]; rfl
            simp only [hget]
          rw [readAll_eq_some hsome]
          have hmeas : readMeasure { s with buf := s.file.take BUF_SIZE, file := s.file.drop BUF_SIZE, index := 1, byte := (f0 <<< 1) % 256, nbits := 1 } ≤ n := by
            unfold readMeasure at hm ⊢
            simp only [List.length_take, List.length_drop] at *
            rw [hfile] at hm ⊢
            simp only [List.length_cons] at *
            have hpos : (0:Nat) < BUF_SIZE := by decide
            omega
          rw [ih _ hmeas (by simp)]
          have hdropbuf : (s.file.take BUF_SIZE).drop 1 = frest.take (BUF_SIZE - 1) := by
            rw [htake]
            rfl
          have hsplit : frest.flatMap byteBits
              = (frest.take (BUF_SIZE - 1)).flatMap byteBits
                ++ (frest.drop (BUF_SIZE - 1)).flatMap byteBits := by
            rw [← List.flatMap_append, List.take_append_drop]
          simp only [hdropbuf, hb, hdrop, hfile, List.flatMap_cons, List.flatMap_nil,
            byteBits_eq, byteBitsAux_zero, hsplit]
          have htake2 : List.take BUF_SIZE (f0 :: frest)
              = f0 :: List.take (BUF_SIZE - 1) frest := by
            rw [← hfile]; exact htake
          have hbuf1 : BUF_SIZE = (BUF_SIZE - 1) + 1 := by decide
          have hdrop2 : List.drop BUF_SIZE (f0 :: frest) = List.drop (BUF_SIZE - 1) frest := by
            conv_lhs => rw [hbuf1]
            rw [List.drop_succ_cons]
          simp [htake2, hdrop2, byteBitsAux_zero, List.append_assoc]
      · push_neg at hidx
        have hsome : bits_io_read_bit s = some (s.buf.getD s.index 0 >>> 7, { s with index := s.index + 1, byte := ((s.buf.getD s.index 0) <<< 1) % 256, nbits := 1 }) := by
          unfold bits_io_read_bit
          rw [if_pos h8, if_neg (by omega)]
        rw [readAll_eq_some hsome]
        have hmeas : readMeasure { s with index := s.index + 1, byte := ((s.buf.getD s.index 0) <<< 1) % 256, nbits := 1 } ≤ n := by
          unfold readMeasure at hm ⊢
          simp only at *
          omega
        rw [ih _ hmeas (by simp)]
        have hdropstep : s.buf.drop s.index
            = s.buf.getD s.index 0 :: s.buf.drop (s.index + 1) := by
          rw [List.getD_eq_getElem?_getD, List.getElem?_eq_getElem hidx]
          exact List.drop_eq_getElem_cons hidx
        simp only [hb, hdropstep, List.flatMap_cons, byteBits_eq, byteBitsAux_zero]
        simp [List.append_assoc, byteBitsAux_zero]
    · push_neg at h8
      have hsome : bits_io_read_bit s = some (s.byte >>> 7, { s with byte := (s.byte <<< 1) % 256, nbits := s.nbits + 1 }) := by
        unfold bits_io_read_bit
        rw [if_neg (by omega)]
      rw [readAll_eq_some hsome]
      have hmeas : readMeasure { s with byte := (s.byte <<< 1) % 256, nbits := s.nbits + 1 } ≤ n := by
        unfold readMeasure at hm ⊢
        simp only at *
        omega
      rw [ih _ hmeas (by simp; omega)]
      simp only
      have hexp : 8 - s.nbits = (8 - (s.nbits + 1)) + 1 := by omega
      rw [hexp, byteBitsAux_succ]
      simp [List.append_assoc]

/-- Reading a whole file bit by bit yields the read-protocol bits of each of
its bytes in order. -/
lemma readAll_openR (file : List Nat) : readAll (openR file) = file.flatMap byteBits := by
  have h := readAll_spec_aux (readMeasure (openR file)) (openR file) le_rfl (by rfl)
  rw [h]
  show byteBitsAux 0 0 ++ (([] : List Nat).drop BUF_SIZE).flatMap byteBits
      ++ file.flatMap byteBits = file.flatMap byteBits
  simp [byteBitsAux_zero]

/-! ## Bit vector values -/

/-- The most-significant-first bit expansion of the low w bits of n. -/
def bitsW : Nat → Nat → List Nat
  | 0, _ => []
  | w+1, n => ((n >>> w) % 2) :: bitsW w n

lemma bitsW_length : ∀ (w n : Nat), (bitsW w n).length = w
  | 0, _ => rfl
  | w+1, n => by simp [bitsW, bitsW_length w n]

lemma bitsW_lt : ∀ (w n : Nat), ∀ b ∈ bitsW w n, b < 2
  | 0, _ => by intro b hb; simp [bitsW] at hb
  | w+1, n => by
    intro b hb
    simp only [bitsW, List.mem_cons] at hb
    rcases hb with hb | hb
    · omega
    · exact bitsW_lt w n b hb

lemma or_shift_add {a b : Nat} (hb : b < 2) : (a <<< 1) ||| b = 2 * a + b := by
  have h1 : a <<< 1 = 2 * a := by rw [Nat.shiftLeft_eq]; ring
  match b, hb with
  | 0, _ => rw [h1, Nat.or_zero]; omega
  | 1, _ =>
    rw [h1]
    apply Nat.eq_of_testBit_eq
    intro j
    cases j with
    | zero =>
      rw [Nat.testBit_or]
      simp [Nat.testBit_zero]
      omega
    | succ j =>
      rw [Nat.testBit_or, Nat.testBit_succ, Nat.testBit_succ, Nat.testBit_succ]
      have e1 : 2 * a / 2 = a := by omega
      have e2 : (2 * a + 1) / 2 = a := by omega
      have e3 : (1 : Nat) / 2 = 0 := by norm_num
      rw [e1, e2, e3]
      simp [Nat.zero_testBit]

lemma div_pow_mod_two (m k : Nat) : m / 2^k % 2 = m % 2^(k+1) / 2^k := by
  rw [Nat.pow_succ, Nat.mod_mul_right_div_self]

lemma bitsW_congr : ∀ (k m1 m2 : Nat), m1 % 2^k = m2 % 2^k → bitsW k m1 = bitsW k m2
  | 0, _, _, _ => rfl
  | k+1, m1, m2, h => by
    unfold bitsW
    have hd : m1 >>> k % 2 = m2 >>> k % 2 := by
      rw [Nat.shiftRight_eq_div_pow, Nat.shiftRight_eq_div_pow, div_pow_mod_two,
        div_pow_mod_two, h]
    have ht : bitsW k m1 = bitsW k m2 := by
      apply bitsW_congr
      have hdvd : (2:Nat)^k ∣ 2^(k+1) := pow_dvd_pow 2 (by omega)
      calc m1 % 2^k = m1 % 2^(k+1) % 2^k := (Nat.mod_mod_of_dvd m1 hdvd).symm
        _ = m2 % 2^(k+1) % 2^k := by rw [h]
        _ = m2 % 2^k := Nat.mod_mod_of_dvd m2 hdvd
    rw [hd, ht]

lemma bitsW_append_bit : ∀ (w a b : Nat), b < 2 → bitsW (w+1) (2*a + b) = bitsW w a ++ [b]
  | 0, a, b, hb => by
    unfold bitsW
    simp only [Nat.shiftRight_zero, List.nil_append]
    congr 1
    omega
  | w+1, a, b, hb => by
    have ih := bitsW_append_bit w a b hb
    show ((2*a+b) >>> (w+1)) % 2 :: bitsW (w+1) (2*a+b)
        = ((a >>> w) % 2 :: bitsW w a) ++ [b]
    rw [ih]
    have hd : (2*a+b) >>> (w+1) = a >>> w := by
      rw [Nat.shiftRight_eq_div_pow, Nat.shiftRight_eq_div_pow]
      have : (2:Nat)^(w+1) = 2 * 2^w := by ring
      rw [this, ← Nat.div_div_eq_div_mul]
      congr 1
      omega
    rw [hd]
    rfl

lemma bitsW_mul_pow : ∀ (k w a : Nat), bitsW (w + k) (a * 2^k) = bitsW w a ++ List.replicate k 0
  | 0, w, a => by simp [List.replicate]
  | k+1, w, a => by
    have h1 : a * 2^(k+1) = 2 * (a * 2^k) + 0 := by ring
    have h2 : w + (k+1) = (w + k) + 1 := by omega
    rw [h2, h1, bitsW_append_bit (w+k) (a * 2^k) 0 (by omega), bitsW_mul_pow k w a]
    rw [show List.replicate (k+1) 0 = List.replicate k 0 ++ [0] from List.replicate_succ' ..]
    simp [List.append_assoc]

lemma byteBitsAux_eq_bitsW : ∀ (k m : Nat), k ≤ 8 → m < 256 →
    byteBitsAux m k = bitsW k (m >>> (8 - k))
  | 0, m, _, _ => rfl
  | k+1, m, hk, hm => by
    have hmod : (m <<< 1) % 256 < 256 := Nat.mod_lt _ (by omega)
    have ih := byteBitsAux_eq_bitsW k ((m <<< 1) % 256) (by omega) hmod
    rw [byteBitsAux_succ, ih]
    show (m >>> 7) :: bitsW k (((m <<< 1) % 256) >>> (8 - k))
        = bitsW (k+1) (m >>> (8 - (k+1)))
    have h87 : 8 - (k+1) = 7 - k := by omega
    rw [h87]
    show _ = ((m >>> (7-k)) >>> k) % 2 :: bitsW k (m >>> (7-k))
    have hd : ((m >>> (7-k)) >>> k) % 2 = m >>> 7 := by
      rw [Nat.shiftRight_eq_div_pow, Nat.shiftRight_eq_div_pow, Nat.shiftRight_eq_div_pow,
        Nat.div_div_eq_div_mul, ← pow_add]
      have hek : 7 - k + k = 7 := by omega
      rw [hek]
      have h128 : (2:Nat)^7 = 128 := by norm_num
      rw [h128]
      omega
    have ht : bitsW k (((m <<< 1) % 256) >>> (8 - k)) = bitsW k (m >>> (7-k)) := by
      apply bitsW_congr
      rw [Nat.shiftRight_eq_div_pow, Nat.shiftRight_eq_div_pow, Nat.shiftLeft_eq]
      have h256 : (256:Nat) = 2^(8-k) * 2^k := by
        rw [← pow_add]
        have hek8 : 8 - k + k = 8 := by omega
        rw [hek8]
        norm_num
      rw [h256, Nat.mod_mul_right_div_self]
      have hdd : m * 2^1 / 2^(8-k) = m / 2^(7-k) := by
        have h1 : (2:Nat)^(8-k) = 2^(7-k) * 2^1 := by
          rw [← pow_add]
          congr 1
          omega
        rw [h1, Nat.pow_one]
        rw [show (2:Nat)^(7-k) * 2 = 2 * 2^(7-k) from by ring]
        rw [← Nat.div_div_eq_div_mul]
        congr 1
        omega
      rw [hdd]
      exact Nat.mod_mod_of_dvd _ dvd_rfl
    rw [hd, ht]

lemma byteBits_eq_bitsW (m : Nat) (h : m < 256) : byteBits m = bitsW 8 m := by
  have := byteBitsAux_eq_bitsW 8 m (by omega) h
  rw [byteBits, this]
  rfl

lemma flatten_packPartial : ∀ (bs : List Nat) (byte nbits : Nat), nbits < 8 → byte < 2^nbits →
    (∀ b ∈ bs, b < 2) →
    (packPartial byte nbits bs).flatMap byteBits
      = bitsW nbits byte ++ bs ++ List.replicate ((8 - (nbits + bs.length) % 8) % 8) 0 := by
  intro bs
  induction bs with
  | nil =>
    intro byte nbits h8 hby _hbs
    rw [packPartial_nil]
    by_cases hpos : nbits > 0
    · rw [if_pos hpos]
      have hsh : byte <<< (8 - nbits) = byte * 2^(8 - nbits) := Nat.shiftLeft_eq _ _
      have hlt : byte * 2^(8 - nbits) < 256 := by
        have h2 : byte * 2^(8-nbits) < 2^nbits * 2^(8-nbits) :=
          mul_lt_mul_of_pos_right hby (Nat.pos_pow_of_pos _ (by omega))
        have h3 : (2:Nat)^nbits * 2^(8-nbits) = 256 := by
          rw [← pow_add]
          have : nbits + (8 - nbits) = 8 := by omega
          rw [this]
          norm_num
        omega
      have hmod : (byte <<< (8 - nbits)) % 256 = byte * 2^(8 - nbits) := by
        rw [hsh]
        exact Nat.mod_eq_of_lt hlt
      rw [List.flatMap_cons, List.flatMap_nil, List.append_nil, hmod,
        byteBits_eq_bitsW _ hlt]
      have hmp : bitsW 8 (byte * 2^(8-nbits)) = bitsW nbits byte ++ List.replicate (8-nbits) 0 := by
        have h := bitsW_mul_pow (8-nbits) nbits byte
        rw [show nbits + (8-nbits) = 8 from by omega] at h
        exact h
      rw [hmp]
      simp only [List.length_nil, Nat.add_zero, List.append_nil]
      have hc : (8 - nbits % 8) % 8 = 8 - nbits := by omega
      rw [hc]
    · rw [if_neg hpos]
      have hz : nbits = 0 := by omega
      subst hz
      have hcount : (8 - (0 + 0) % 8) % 8 = 0 := by norm_num
      rw [show ([] : List Nat).length = 0 from rfl, hcount]
      simp [bitsW]
  | cons b bs ih =>
    intro byte nbits h8 hby hbs
    have hb : b < 2 := hbs b (List.mem_cons_self b bs)
    have hbs' : ∀ x ∈ bs, x < 2 := fun x hx => hbs x (List.mem_cons_of_mem b hx)
    have hor : (byte <<< 1) ||| b = 2 * byte + b := or_shift_add hb
    rw [packPartial_cons]
    by_cases h7 : nbits + 1 ≥ 8
    · rw [if_pos h7]
      have h7' : nbits = 7 := by omega
      subst h7'
      have hlt : 2 * byte + b < 256 := by
        have : (2:Nat)^7 = 128 := by norm_num
        omega
      have hmod : ((byte <<< 1) ||| b) % 256 = 2 * byte + b := by
        rw [hor]
        exact Nat.mod_eq_of_lt hlt
      rw [List.flatMap_cons, hmod, byteBits_eq_bitsW _ hlt,
        show (8:Nat) = 7 + 1 from rfl, bitsW_append_bit 7 byte b hb,
        ih 0 0 (by omega) (by norm_num) hbs']
      have hcount : (8 - (0 + bs.length) % 8) % 8 = (8 - (7 + (b :: bs).length) % 8) % 8 := by
        rw [List.length_cons]
        omega
      rw [hcount]
      simp [bitsW, List.append_assoc]
    · rw [if_neg h7]
      have hlt : 2 * byte + b < 256 := by
        have h1 : byte < 2^7 := by
          have : (2:Nat)^nbits ≤ 2^7 := Nat.pow_le_pow_right (by omega) (by omega)
          omega
        have : (2:Nat)^7 = 128 := by norm_num
        omega
      have hmod : ((byte <<< 1) ||| b) % 256 = 2 * byte + b := by
        rw [hor]
        exact Nat.mod_eq_of_lt hlt
      have hby' : 2 * byte + b < 2^(nbits+1) := by
        have : (2:Nat)^(nbits+1) = 2 * 2^nbits := by ring
        omega
      rw [hmod, ih (2*byte+b) (nbits+1) (by omega) hby' hbs',
        bitsW_append_bit nbits byte b hb]
      have hcount : (8 - (nbits + 1 + bs.length) % 8) % 8
          = (8 - (nbits + (b :: bs).length) % 8) % 8 := by
        rw [List.length_cons]
        omega
      rw [hcount]
      simp [List.append_assoc]

/-- The byte value of a bit sequence, most significant bit first. -/
def byteVal (bs : List Nat) : Nat := bs.foldl (fun a b => 2*a + b) 0

/-- The output file layout stated by the spec: the written bits packed eight
per byte in order, and, when a partial group of fewer than eight bits
remains, one final byte holding those bits left-justified with zero padding. -/
def packSpecFull (bs : List Nat) : List Nat :=
  if h : 8 ≤ bs.length then byteVal (bs.take 8) :: packSpecFull (bs.drop 8)
  else if bs.length = 0 then [] else [byteVal bs * 2 ^ (8 - bs.length)]
termination_by bs.length
decreasing_by simp; omega

lemma mod_pow_succ_decomp (n w : Nat) : n % 2^(w+1) = (n / 2^w % 2) * 2^w + n % 2^w := by
  have hq := Nat.div_add_mod n (2^w)
  set q := n / 2^w with hqdef
  set r := n % 2^w with hrdef
  have hr : r < 2^w := Nat.mod_lt _ (Nat.pos_pow_of_pos _ (by omega))
  have hq2 := Nat.div_add_mod q 2
  set u := q % 2 with hudef
  have hu : u < 2 := Nat.mod_lt _ (by omega)
  have hn : n = (2^w * 2) * (q / 2) + (u * 2^w + r) := by
    calc n = 2^w * q + r := hq.symm
      _ = 2^w * (2 * (q/2) + u) + r := by rw [hq2]
      _ = (2^w * 2) * (q / 2) + (u * 2^w + r) := by ring
  have hpow : (2:Nat)^(w+1) = 2^w * 2 := by ring
  rw [hpow, hn]
  rw [Nat.mul_add_mod]
  exact Nat.mod_eq_of_lt (by
    have : u * 2^w ≤ 1 * 2^w := Nat.mul_le_mul_right _ (by omega)
    have h2 : (2:Nat)^w * 2 = 2^w + 2^w := by ring
    omega)

lemma foldl_bitsW : ∀ (w n a : Nat), (bitsW w n).foldl (fun x b => 2*x+b) a = a * 2^w + n % 2^w
  | 0, n, a => by simp [bitsW, Nat.mod_one]
  | w+1, n, a => by
    show (bitsW w n).foldl (fun x b => 2*x+b) (2*a + (n >>> w) % 2) = a * 2^(w+1) + n % 2^(w+1)
    rw [foldl_bitsW w n (2*a + (n >>> w) % 2), Nat.shiftRight_eq_div_pow,
      mod_pow_succ_decomp n w]
    ring

lemma byteVal_bitsW (w n : Nat) (h : n < 2^w) : byteVal (bitsW w n) = n := by
  unfold byteVal
  rw [foldl_bitsW w n 0]
  simp [Nat.mod_eq_of_lt h]

lemma packSpecFull_ge {bs : List Nat} (h : 8 ≤ bs.length) :
    packSpecFull bs = byteVal (bs.take 8) :: packSpecFull (bs.drop 8) := by
  rw [packSpecFull, dif_pos h]

lemma packSpecFull_lt {bs : List Nat} (h : ¬ 8 ≤ bs.length) :
    packSpecFull bs = if bs.length = 0 then [] else [byteVal bs * 2 ^ (8 - bs.length)] := by
  rw [packSpecFull, dif_neg h]

lemma packPartial_eq_packSpecFull : ∀ (bs : List Nat) (byte nbits : Nat),
    nbits < 8 → byte < 2^nbits → (∀ b ∈ bs, b < 2) →
    packPartial byte nbits bs = packSpecFull (bitsW nbits byte ++ bs) := by
  intro bs
  induction bs with
  | nil =>
    intro byte nbits h8 hby _hbs
    rw [packPartial_nil]
    have hlen : (bitsW nbits byte ++ []).length = nbits := by
      simp [bitsW_length]
    rw [packSpecFull_lt (by omega), hlen]
    by_cases hpos : nbits > 0
    · rw [if_pos hpos, if_neg (by omega)]
      have hbv : byteVal (bitsW nbits byte ++ []) = byte := by
        rw [List.append_nil]
        exact byteVal_bitsW nbits byte hby
      rw [hbv]
      have hsh : byte <<< (8 - nbits) = byte * 2^(8 - nbits) := Nat.shiftLeft_eq _ _
      have hlt : byte * 2^(8 - nbits) < 256 := by
        have h2 : byte * 2^(8-nbits) < 2^nbits * 2^(8-nbits) :=
          mul_lt_mul_of_pos_right hby (Nat.pos_pow_of_pos _ (by omega))
        have h3 : (2:Nat)^nbits * 2^(8-nbits) = 256 := by
          rw [← pow_add]
          have : nbits + (8 - nbits) = 8 := by omega
          rw [this]
          norm_num
        omega
      rw [hsh, Nat.mod_eq_of_lt hlt]
    · rw [if_neg hpos, if_pos (by omega)]
  | cons b bs ih =>
    intro byte nbits h8 hby hbs
    have hb : b < 2 := hbs b (List.mem_cons_self b bs)
    have hbs' : ∀ x ∈ bs, x < 2 := fun x hx => hbs x (List.mem_cons_of_mem b hx)
    have hor : (byte <<< 1) ||| b = 2 * byte + b := or_shift_add hb
    rw [packPartial_cons]
    by_cases h7 : nbits + 1 ≥ 8
    · rw [if_pos h7]
      have h7' : nbits = 7 := by omega
      subst h7'
      have hlt : 2 * byte + b < 256 := by
        have : (2:Nat)^7 = 128 := by norm_num
        omega
      have hmod : ((byte <<< 1) ||| b) % 256 = 2 * byte + b := by
        rw [hor]
        exact Nat.mod_eq_of_lt hlt
      have hlen7 : (bitsW 7 byte).length = 7 := bitsW_length 7 byte
      have hlen : 8 ≤ (bitsW 7 byte ++ b :: bs).length := by
        rw [List.length_append, hlen7, List.length_cons]
        omega
      rw [packSpecFull_ge hlen]
      have htake : (bitsW 7 byte ++ b :: bs).take 8 = bitsW 7 byte ++ [b] := by
        rw [List.take_append_eq_append_take, List.take_of_length_le (by omega), hlen7]
        rfl
      have hdrop : (bitsW 7 byte ++ b :: bs).drop 8 = bs := by
        rw [List.drop_append_eq_append_drop, List.drop_of_length_le (by omega), hlen7]
        rfl
      rw [htake, hdrop, ← bitsW_append_bit 7 byte b hb,
        byteVal_bitsW 8 (2*byte+b) (by norm_num; omega), hmod,
        ih 0 0 (by omega) (by norm_num) hbs']
      rfl
    · rw [if_neg h7]
      have hby' : 2 * byte + b < 2^(nbits+1) := by
        have : (2:Nat)^(nbits+1) = 2 * 2^nbits := by ring
        omega
      have hlt : 2 * byte + b < 256 := by
        have h1 : (2:Nat)^(nbits+1) ≤ 2^8 := Nat.pow_le_pow_right (by omega) (by omega)
        have : (2:Nat)^8 = 256 := by norm_num
        omega
      have hmod : ((byte <<< 1) ||| b) % 256 = 2 * byte + b := by
        rw [hor]
        exact Nat.mod_eq_of_lt hlt
      rw [hmod, ih (2*byte+b) (nbits+1) (by omega) hby' hbs',
        bitsW_append_bit nbits byte b hb]
      simp [List.append_assoc]

/-! ## Decimal print/parse round trip -/

lemma digit_isDigit {d : Nat} (h : d < 10) : isDigitC (Char.ofNat (48 + d)) = true := by
  interval_cases d <;> decide

lemma digit_toNat {d : Nat} (h : d < 10) : (Char.ofNat (48 + d)).toNat - 48 = d := by
  interval_cases d <;> decide

lemma digit_not_space {d : Nat} (h : d < 10) : isSpaceC (Char.ofNat (48 + d)) = false := by
  interval_cases d <;> decide

lemma digit_ne_minus {d : Nat} (h : d < 10) : Char.ofNat (48 + d) ≠ '-' := by
  interval_cases d <;> decide

lemma digit_ne_plus {d : Nat} (h : d < 10) : Char.ofNat (48 + d) ≠ '+' := by
  interval_cases d <;> decide

lemma digit_ne_hash {d : Nat} (h : d < 10) : Char.ofNat (48 + d) ≠ '#' := by
  interval_cases d <;> decide

lemma natStr_ne_nil (n : Nat) : natStr n ≠ [] := by
  rw [natStr]
  split
  · simp
  · simp

lemma natStr_all_digits : ∀ (n : Nat), ∀ c ∈ natStr n, isDigitC c = true := by
  intro n
  induction n using Nat.strong_induction_on with
  | _ n ih =>
    intro c hc
    rw [natStr] at hc
    split at hc
    · rename_i h10
      simp only [List.mem_singleton] at hc
      subst hc
      exact digit_isDigit h10
    · rename_i h10
      rcases List.mem_append.mp hc with hmem | hmem
      · exact ih (n / 10) (Nat.div_lt_self (by omega) (by omega)) c hmem
      · simp only [List.mem_singleton] at hmem
        subst hmem
        exact digit_isDigit (Nat.mod_lt _ (by omega))

lemma natStr_head_digit (n : Nat) : isDigitC ((natStr n).headD 'x') = true := by
  have hne := natStr_ne_nil n
  have hall := natStr_all_digits n
  cases hh : natStr n with
  | nil => exact absurd hh hne
  | cons c r =>
    have : c ∈ natStr n := by rw [hh]; exact List.mem_cons_self c r
    simpa using hall c this

lemma digitsLoop_stop {rest : List Char} (h : isDigitC (rest.headD 'x') = false) (acc : Nat) :
    digitsLoop acc rest = (acc, rest) := by
  cases rest with
  | nil => rfl
  | cons c r =>
    simp only [List.headD_cons] at h
    simp [digitsLoop, h]

lemma digitsLoop_append (s : List Char) (hs : ∀ c ∈ s, isDigitC c = true) :
    ∀ (t : List Char) (acc : Nat),
    digitsLoop acc (s ++ t) = digitsLoop (s.foldl (fun a c => a*10 + (c.toNat - 48)) acc) t := by
  induction s with
  | nil => intro t acc; rfl
  | cons c r ih =>
    intro t acc
    have hc : isDigitC c = true := hs c (List.mem_cons_self c r)
    have hr : ∀ x ∈ r, isDigitC x = true := fun x hx => hs x (List.mem_cons_of_mem c hx)
    simp only [List.cons_append, digitsLoop, hc, if_true, List.foldl_cons]
    exact ih hr t _

lemma natStr_foldl : ∀ (n : Nat) (acc : Nat),
    (natStr n).foldl (fun a c => a*10 + (c.toNat - 48)) acc
      = acc * 10^(natStr n).length + n := by
  intro n
  induction n using Nat.strong_induction_on with
  | _ n ih =>
    intro acc
    rw [natStr]
    split
    · rename_i h10
      simp only [List.foldl_cons, List.foldl_nil, List.length_singleton]
      rw [digit_toNat h10]
      ring
    · rename_i h10
      rw [List.foldl_append]
      rw [ih (n / 10) (Nat.div_lt_self (by omega) (by omega)) acc]
      simp only [List.foldl_cons, List.foldl_nil, List.length_append, List.length_singleton]
      rw [digit_toNat (Nat.mod_lt _ (by omega))]
      rw [pow_succ]
      have := Nat.div_add_mod n 10
      ring_nf
      omega

lemma digitsLoop_natStr (n : Nat) (rest : List Char)
    (h : isDigitC (rest.headD 'x') = false) :
    digitsLoop 0 (natStr n ++ rest) = (n, rest) := by
  rw [digitsLoop_append (natStr n) (natStr_all_digits n) rest 0, natStr_foldl n 0,
    Nat.zero_mul, Nat.zero_add, digitsLoop_stop h]

lemma parseIntC_intStr (v : Int) (rest : List Char)
    (h : isDigitC (rest.headD 'x') = false) :
    parseIntC (intStr v ++ rest) = some (v, rest) := by
  unfold intStr
  by_cases hneg : v < 0
  · rw [if_pos hneg]
    show parseIntC ('-' :: (natStr (-v).toNat ++ rest)) = some (v, rest)
    unfold parseIntC
    simp only
    rw [if_pos trivial]
    have hhd : isDigitC ((natStr (-v).toNat ++ rest).headD ' ') = true := by
      cases hh : natStr (-v).toNat with
      | nil => exact absurd hh (natStr_ne_nil _)
      | cons c r =>
        have hd := natStr_head_digit (-v).toNat
        rw [hh] at hd
        simpa using hd
    rw [if_pos ⟨by simp [natStr_ne_nil], hhd⟩]
    rw [digitsLoop_natStr _ rest h]
    simp only [Option.some.injEq, Prod.mk.injEq]
    exact ⟨by omega, by trivial⟩
  · rw [if_neg hneg]
    have hne := natStr_ne_nil v.toNat
    cases hh : natStr v.toNat with
    | nil => exact absurd hh hne
    | cons c r =>
      have hcd : isDigitC c = true := by
        have := natStr_head_digit v.toNat
        rw [hh] at this
        simpa using this
      have hcm : c ≠ '-' := by
        intro hc
        rw [hc] at hcd
        exact absurd hcd (by decide)
      have hcp : c ≠ '+' := by
        intro hc
        rw [hc] at hcd
        exact absurd hcd (by decide)
      show parseIntC (c :: (r ++ rest)) = some (v, rest)
      unfold parseIntC
      simp only
      rw [if_neg hcm, if_neg hcp, if_pos hcd]
      have : digitsLoop 0 (c :: (r ++ rest)) = (v.toNat, rest) := by
        have := digitsLoop_natStr v.toNat rest h
        rw [hh] at this
        simpa using this
      rw [this]
      simp only [Option.some.injEq, Prod.mk.injEq]
      exact ⟨by omega, by trivial⟩

/-! ## fscanf on serialized leaf records -/

/-- One serialized leaf record, as printed by tree_serialize_rec. -/
def recordStr (p : Int × Int) : List Char := intStr p.1 ++ ' ' :: intStr p.2 ++ [',']

/-- The LEAF node tree_deserialize builds from one parsed record. -/
def leafOfRec (p : Int × Int) : TreeNode :=
  TreeNode.node ⟨p.1, intToChar p.2⟩ .LEAF .null .null

lemma headD_append {α : Type} (a b : List α) (d : α) (h : a ≠ []) :
    (a ++ b).headD d = a.headD d := by
  cases a with
  | nil => exact absurd rfl h
  | cons x t => rfl

lemma intStr_ne_nil (v : Int) : intStr v ≠ [] := by
  unfold intStr
  split
  · simp
  · exact natStr_ne_nil _

lemma intStr_head_cases (v : Int) :
    (intStr v).headD 'x' = '-' ∨ isDigitC ((intStr v).headD 'x') = true := by
  unfold intStr
  split
  · left
    rfl
  · right
    exact natStr_head_digit _

lemma isDigit_not_space (c : Char) (h : isDigitC c = true) : isSpaceC c = false := by
  unfold isDigitC at h
  unfold isSpaceC
  simp only [Bool.and_eq_true, decide_eq_true_eq] at h
  simp only [Bool.or_eq_false_iff, decide_eq_false_iff_not]
  obtain ⟨h1, h2⟩ := h
  refine ⟨⟨⟨⟨⟨?_, ?_⟩, ?_⟩, ?_⟩, ?_⟩, ?_⟩ <;>
    (intro hc; rw [hc] at h1 h2; revert h1 h2; decide)

lemma isDigit_ne_hash (c : Char) (h : isDigitC c = true) : c ≠ '#' := by
  intro hc
  rw [hc] at h
  exact absurd h (by decide)

lemma intStr_head_not_space (v : Int) : isSpaceC ((intStr v).headD 'x') = false := by
  rcases intStr_head_cases v with h | h
  · rw [h]; decide
  · exact isDigit_not_space _ h

lemma intStr_head_ne_hash (v : Int) : (intStr v).headD 'x' ≠ '#' := by
  rcases intStr_head_cases v with h | h
  · rw [h]; decide
  · exact isDigit_ne_hash _ h

lemma skipWs_of_head_not_space (s : List Char) (h : isSpaceC (s.headD 'x') = false) :
    skipWs s = s := by
  cases s with
  | nil => rfl
  | cons c r =>
    simp only [List.headD_cons] at h
    simp [skipWs, h]

lemma recordStr_eq (p : Int × Int) :
    recordStr p = intStr p.1 ++ (' ' :: (intStr p.2 ++ (',' :: []))) := by
  unfold recordStr
  simp

lemma fscanf_dd_eq_of_ne_nil {s : List Char} (h : skipWs s ≠ []) :
    fscanf_dd s = (match parseIntC (skipWs s) with
      | none => ScanDD.short
      | some (v1, s2) =>
        match parseIntC (skipWs s2) with
        | none => ScanDD.short
        | some (v2, s4) => ScanDD.two v1 v2 (dropComma s4)) := by
  unfold fscanf_dd
  cases hh : skipWs s with
  | nil => exact absurd hh h
  | cons c r => rfl

lemma fscanf_dd_record (p : Int × Int) (tail : List Char) :
    fscanf_dd (recordStr p ++ tail) = .two p.1 p.2 tail := by
  have hshape : recordStr p ++ tail
      = intStr p.1 ++ (' ' :: (intStr p.2 ++ (',' :: tail))) := by
    unfold recordStr
    simp [List.append_assoc]
  have hrest1 : isDigitC ((' ' :: (intStr p.2 ++ (',' :: tail))).headD 'x') = false := by
    rw [List.headD_cons]
    decide
  have hp1 := parseIntC_intStr p.1 (' ' :: (intStr p.2 ++ (',' :: tail))) hrest1
  have hskip1 : skipWs (recordStr p ++ tail) = recordStr p ++ tail := by
    apply skipWs_of_head_not_space
    rw [hshape, headD_append _ _ _ (intStr_ne_nil p.1)]
    exact intStr_head_not_space p.1
  have hskip2 : skipWs (' ' :: (intStr p.2 ++ (',' :: tail)))
      = intStr p.2 ++ (',' :: tail) := by
    rw [show skipWs (' ' :: (intStr p.2 ++ (',' :: tail)))
        = skipWs (intStr p.2 ++ (',' :: tail)) from by simp [skipWs, isSpaceC]]
    apply skipWs_of_head_not_space
    rw [headD_append _ _ _ (intStr_ne_nil p.2)]
    exact intStr_head_not_space p.2
  have hrest2 : isDigitC ((',' :: tail).headD 'x') = false := by
    rw [List.headD_cons]
    decide
  have hp2 := parseIntC_intStr p.2 (',' :: tail) hrest2
  have hne : skipWs (recordStr p ++ tail) ≠ [] := by
    rw [hskip1, hshape]
    simp [intStr_ne_nil]
  rw [fscanf_dd_eq_of_ne_nil hne, hskip1, hshape, hp1]
  show (match parseIntC (skipWs (' ' :: (intStr p.2 ++ (',' :: tail)))) with
      | none => ScanDD.short
      | some (v2, s4) => ScanDD.two p.1 v2 (dropComma s4)) = ScanDD.two p.1 p.2 tail
  rw [hskip2, hp2]
  show ScanDD.two p.1 p.2 (dropComma (',' :: tail)) = ScanDD.two p.1 p.2 tail
  rfl

lemma deser_loop_eq_fail {s : List Char} {pq : List TreeNode}
    (h : fscanf_dd s = .eofErr ∨ fscanf_dd s = .short) :
    deser_loop s pq = .null := by
  rw [deser_loop]
  split
  · rfl
  · rfl
  · rename_i v1 v2 rest heq
    rcases h with h | h <;> (rw [h] at heq; cases heq)

lemma deser_loop_eq_two {s : List Char} {pq : List TreeNode} {v1 v2 : Int} {rest : List Char}
    (h : fscanf_dd s = .two v1 v2 rest) :
    deser_loop s pq = if rest.headD 'x' = '#'
      then merge_nodes (pqueue_enqueue pq (TreeNode.node ⟨v1, intToChar v2⟩ .LEAF .null .null))
      else deser_loop rest (pqueue_enqueue pq (TreeNode.node ⟨v1, intToChar v2⟩ .LEAF .null .null)) := by
  rw [deser_loop]
  split
  · rename_i heq; rw [h] at heq; cases heq
  · rename_i heq; rw [h] at heq; cases heq
  · rename_i v1' v2' rest' heq
    rw [h] at heq
    injection heq with h1 h2 h3
    subst h1; subst h2; subst h3
    rfl

lemma recordStr_ne_nil (p : Int × Int) : recordStr p ≠ [] := by
  unfold recordStr
  simp [intStr_ne_nil]

lemma headD_records_cons (p2 : Int × Int) (rs2 : List (Int × Int)) (t : List Char) :
    (((p2 :: rs2).flatMap recordStr ++ t).headD 'x') ≠ '#' := by
  rw [List.flatMap_cons, List.append_assoc,
    headD_append _ _ _ (recordStr_ne_nil p2), recordStr_eq,
    headD_append _ _ _ (intStr_ne_nil p2.1)]
  exact intStr_head_ne_hash p2.1

lemma deser_loop_records : ∀ (recs : List (Int × Int)) (pq : List TreeNode) (tail : List Char),
    recs ≠ [] →
    deser_loop ((recs.flatMap recordStr) ++ '#' :: tail) pq
      = merge_nodes (recs.foldl (fun q p => pqueue_enqueue q (leafOfRec p)) pq) := by
  intro recs
  induction recs with
  | nil => intro pq tail h; exact absurd rfl h
  | cons p rs ih =>
    intro pq tail _h
    rw [List.flatMap_cons, List.append_assoc,
      deser_loop_eq_two (fscanf_dd_record p (rs.flatMap recordStr ++ '#' :: tail))]
    cases rs with
    | nil =>
      simp only [List.flatMap_nil, List.nil_append, List.headD_cons, if_pos rfl]
      rfl
    | cons p2 rs2 =>
      rw [if_neg (headD_records_cons p2 rs2 ('#' :: tail))]
      exact ih (pqueue_enqueue pq (leafOfRec p)) tail (by simp)

lemma deser_loop_records_fail : ∀ (recs : List (Int × Int)) (pq : List TreeNode) (s : List Char),
    (fscanf_dd s = .eofErr ∨ fscanf_dd s = .short) →
    s.headD 'x' ≠ '#' →
    deser_loop ((recs.flatMap recordStr) ++ s) pq = .null := by
  intro recs
  induction recs with
  | nil =>
    intro pq s hf _hh
    rw [List.flatMap_nil, List.nil_append]
    exact deser_loop_eq_fail hf
  | cons p rs ih =>
    intro pq s hf hh
    rw [List.flatMap_cons, List.append_assoc,
      deser_loop_eq_two (fscanf_dd_record p (rs.flatMap recordStr ++ s))]
    have hhd : ((rs.flatMap recordStr ++ s).headD 'x') ≠ '#' := by
      cases rs with
      | nil => simpa using hh
      | cons p2 rs2 => exact headD_records_cons p2 rs2 s
    rw [if_neg hhd]
    exact ih _ s hf hh

/-! ## Concrete evaluations of the queue operations -/

lemma bubble_up_aux_zero (arr : List TreeNode) (src : TreeNode) :
    bubble_up_aux arr src 0 = arr.set 0 src := by
  rw [bubble_up_aux, if_pos rfl]

lemma bubble_up_aux_one_swap {arr : List TreeNode} {src : TreeNode}
    (h : comparator (arr.getD 0 .null) src > 0) :
    bubble_up_aux arr src 1 = (arr.set 1 (arr.getD 0 .null)).set 0 src := by
  rw [bubble_up_aux, if_neg (by omega : ¬ (1:Nat) = 0),
    show ((1:Nat)-1)/2 = 0 from rfl, if_pos h, bubble_up_aux_zero]

lemma bubble_up_aux_one_stay {arr : List TreeNode} {src : TreeNode}
    (h : ¬ comparator (arr.getD 0 .null) src > 0) :
    bubble_up_aux arr src 1 = arr.set 1 src := by
  rw [bubble_up_aux, if_neg (by omega : ¬ (1:Nat) = 0),
    show ((1:Nat)-1)/2 = 0 from rfl, if_neg h]

lemma bubble_down_aux_stop {arr : List TreeNode} {src : TreeNode} {i endd : Nat}
    (h : ¬ 2*i+1 < endd) :
    bubble_down_aux arr src i endd = arr.set i src := by
  rw [bubble_down_aux, dif_neg h]

lemma pqueue_enqueue_nil (n : TreeNode) : pqueue_enqueue [] n = [n] := by
  unfold pqueue_enqueue
  rw [if_neg (by decide)]
  unfold bubble_up
  show bubble_up_aux [n] ([n].getD 0 .null) 0 = [n]
  rw [bubble_up_aux_zero]
  rfl

lemma pqueue_enqueue_one_swap {m : TreeNode} (n : TreeNode) (h : comparator m n > 0) :
    pqueue_enqueue [m] n = [n, m] := by
  unfold pqueue_enqueue
  rw [if_neg (by norm_num [MAXSIZE])]
  unfold bubble_up
  show bubble_up_aux [m, n] ([m, n].getD 1 .null) 1 = [n, m]
  rw [bubble_up_aux_one_swap (show comparator ([m, n].getD 0 .null) ([m, n].getD 1 .null) > 0 from h)]
  rfl

lemma pqueue_enqueue_one_stay {m : TreeNode} (n : TreeNode) (h : ¬ comparator m n > 0) :
    pqueue_enqueue [m] n = [m, n] := by
  unfold pqueue_enqueue
  rw [if_neg (by norm_num [MAXSIZE])]
  unfold bubble_up
  show bubble_up_aux [m, n] ([m, n].getD 1 .null) 1 = [m, n]
  rw [bubble_up_aux_one_stay (show ¬ comparator ([m, n].getD 0 .null) ([m, n].getD 1 .null) > 0 from h)]
  rfl

lemma pqueue_dequeue_single (n : TreeNode) : pqueue_dequeue [n] = some (n, []) := by
  rw [pqueue_dequeue_of_ne_nil (by simp)]
  show some (n, bubble_down_aux [] TreeNode.null 0 0) = some (n, [])
  rw [bubble_down_aux_stop (by omega)]
  rfl

lemma pqueue_dequeue_pair (m n : TreeNode) : pqueue_dequeue [m, n] = some (m, [n]) := by
  rw [pqueue_dequeue_of_ne_nil (by simp)]
  show some (m, bubble_down_aux [n] n 0 1) = some (m, [n])
  rw [bubble_down_aux_stop (by omega)]
  rfl

lemma pqueue_enqueue_length_pos (pq : List TreeNode) (n : TreeNode) :
    1 ≤ (pqueue_enqueue pq n).length := by
  unfold pqueue_enqueue
  split
  · rename_i h
    unfold MAXSIZE at h
    omega
  · rw [bubble_up, length_bubble_up_aux]
    simp

/-! ## Direct forms of merge_nodes -/

lemma merge_nodes_nil : merge_nodes [] = TreeNode.null := by
  unfold merge_nodes
  rw [if_neg (by simp), merge_loop_eq_stop (by simp)]
  rfl

lemma merge_nodes_single (v c : Int) (ty : NType) (hv : 1 ≤ v) :
    merge_nodes [TreeNode.node ⟨v, c⟩ ty .null .null]
      = TreeNode.node ⟨-1 + v, 0⟩ .INTERNAL
          (TreeNode.node ⟨-1, 0⟩ .INTERNAL .null .null)
          (TreeNode.node ⟨v, c⟩ ty .null .null) := by
  set leaf := TreeNode.node ⟨v, c⟩ ty .null .null with hleaf
  set sent := TreeNode.node ⟨-1, 0⟩ NType.INTERNAL .null .null with hsent
  unfold merge_nodes
  rw [if_pos (by simp)]
  have he : pqueue_enqueue [leaf] sent = [sent, leaf] := by
    apply pqueue_enqueue_one_swap
    show comparator leaf sent > 0
    rw [hleaf, hsent]
    unfold comparator
    rw [if_neg (by show ¬ (v < -1); omega), if_pos (by show v > -1; omega)]
    norm_num
  rw [he, merge_loop_eq_step (by simp) (pqueue_dequeue_pair sent leaf)
    (pqueue_dequeue_single leaf), pqueue_enqueue_nil, merge_loop_eq_stop (by simp),
    pqueue_dequeue_single]
  rfl

/-! ## Predicate transfer through merge_nodes and the enqueue folds -/

lemma merge_nodes_pred (P : TreeNode → Prop)
    (hP : ∀ l r, P l → P r → P (TreeNode.node ⟨l.freqv + r.freqv, 0⟩ .INTERNAL l r))
    (hsent : P (TreeNode.node ⟨-1, 0⟩ .INTERNAL .null .null))
    (hnil : P TreeNode.null)
    (pq : List TreeNode) (hlen : pq.length ≤ MAXSIZE)
    (hall : ∀ x ∈ pq, P x) : P (merge_nodes pq) := by
  by_cases h0 : pq.length = 0
  · have hpq : pq = [] := List.length_eq_zero.mp h0
    rw [hpq, merge_nodes_nil]
    exact hnil
  · exact merge_nodes_P P hP hsent pq (by omega) hlen hall

lemma merge_nodes_ne_null {pq : List TreeNode} (h1 : 1 ≤ pq.length)
    (h2 : pq.length ≤ MAXSIZE) (hall : ∀ x ∈ pq, x ≠ TreeNode.null) :
    merge_nodes pq ≠ TreeNode.null :=
  merge_nodes_P (fun t => t ≠ TreeNode.null)
    (fun _l _r _ _ hc => TreeNode.noConfusion hc)
    (fun hc => TreeNode.noConfusion hc) pq h1 h2 hall

lemma merge_nodes_sumOK {pq : List TreeNode} (hlen : pq.length ≤ MAXSIZE)
    (hall : ∀ x ∈ pq, sumOK x = true) : sumOK (merge_nodes pq) = true :=
  merge_nodes_pred (fun t => sumOK t = true)
    (fun _l _r hl hr => sumOK_node hl hr) rfl rfl pq hlen hall

lemma merge_nodes_allInternal {pq : List TreeNode} (hlen : pq.length ≤ MAXSIZE)
    (hall : ∀ x ∈ pq, allInternal x = true) : allInternal (merge_nodes pq) = true :=
  merge_nodes_pred (fun t => allInternal t = true)
    (fun _l _r hl hr => by simp [allInternal, hl, hr]) rfl rfl pq hlen hall

lemma create_foldl_mem (P : TreeNode → Prop)
    (hP : ∀ f : Frequency, P (TreeNode.node f .INTERNAL .null .null)) :
    ∀ (table : List Frequency) (pq : List TreeNode), (∀ x ∈ pq, P x) →
    ∀ y ∈ table.foldl (fun pq f =>
      if f.v > 0 then pqueue_enqueue pq (TreeNode.node f .INTERNAL .null .null) else pq) pq,
    P y := by
  intro table
  induction table with
  | nil => intro pq h y hy; exact h y hy
  | cons f fs ih =>
    intro pq h y hy
    rw [List.foldl_cons] at hy
    refine ih _ ?_ y hy
    intro x hx
    by_cases hf : f.v > 0
    · rw [if_pos hf] at hx
      rcases mem_enqueue hx with hmem | heq
      · exact h x hmem
      · subst heq; exact hP f
    · rw [if_neg hf] at hx
      exact h x hx

lemma create_foldl_length :
    ∀ (table : List Frequency) (pq : List TreeNode), pq.length ≤ MAXSIZE →
    (table.foldl (fun pq f =>
      if f.v > 0 then pqueue_enqueue pq (TreeNode.node f .INTERNAL .null .null) else pq)
      pq).length ≤ MAXSIZE := by
  intro table
  induction table with
  | nil => intro pq h; exact h
  | cons f fs ih =>
    intro pq h
    rw [List.foldl_cons]
    refine ih _ ?_
    by_cases hf : f.v > 0
    · rw [if_pos hf]
      exact pqueue_enqueue_length_le h
    · rw [if_neg hf]
      exact h

lemma create_tree_nodes_mem (P : TreeNode → Prop)
    (hP : ∀ f : Frequency, P (TreeNode.node f .INTERNAL .null .null))
    (table : List Frequency) : ∀ y ∈ create_tree_nodes table, P y := by
  unfold create_tree_nodes
  exact create_foldl_mem P hP table pqueue_new (by intro x hx; cases hx)

lemma create_tree_nodes_length (table : List Frequency) :
    (create_tree_nodes table).length ≤ MAXSIZE := by
  unfold create_tree_nodes
  exact create_foldl_length table pqueue_new (by norm_num [pqueue_new, MAXSIZE])

lemma build_tree_allInternal (input : List Nat) :
    allInternal (huffman_build_tree input) = true := by
  unfold huffman_build_tree
  exact merge_nodes_allInternal (create_tree_nodes_length _)
    (create_tree_nodes_mem (fun t => allInternal t = true) (fun f => by simp [allInternal]) _)

lemma build_tree_sumOK (input : List Nat) :
    sumOK (huffman_build_tree input) = true := by
  unfold huffman_build_tree
  exact merge_nodes_sumOK (create_tree_nodes_length _)
    (create_tree_nodes_mem (fun t => sumOK t = true) (fun f => rfl) _)

lemma serialize_build_tree (input : List Nat) :
    tree_serialize (huffman_build_tree input) = ['#', '#'] := by
  unfold tree_serialize
  rw [ser_eq_nil_of_allInternal _ (build_tree_allInternal input)]
  rfl

/-! ## Facts about tree_deserialize -/

lemma tree_deserialize_cons_hash (r : List Char) :
    tree_deserialize ('#' :: r) = deser_loop r [] := rfl

lemma tree_deserialize_not_hash (s : List Char) (h : s.headD 'x' ≠ '#') :
    tree_deserialize s = TreeNode.null := by
  unfold tree_deserialize
  split
  · exact absurd rfl h
  · rfl

lemma deserialize_hash_hash : tree_deserialize ['#', '#'] = TreeNode.null := by
  rw [tree_deserialize_cons_hash]
  exact deser_loop_eq_fail (Or.inr rfl)

lemma deser_loop_sumOK : ∀ (s : List Char) (pq : List TreeNode), pq.length ≤ MAXSIZE →
    (∀ x ∈ pq, sumOK x = true) → sumOK (deser_loop s pq) = true := by
  intro s pq
  induction s, pq using deser_loop.induct with
  | case1 s pq h =>
    intro _hlen _hall
    rw [deser_loop_eq_fail (Or.inl h)]
    rfl
  | case2 s pq h =>
    intro _hlen _hall
    rw [deser_loop_eq_fail (Or.inr h)]
    rfl
  | case3 s pq v1 v2 rest h hh =>
    intro hlen hall
    rw [deser_loop_eq_two h, if_pos hh]
    refine merge_nodes_sumOK (pqueue_enqueue_length_le hlen) ?_
    intro x hx
    rcases mem_enqueue hx with hmem | heq
    · exact hall x hmem
    · subst heq; rfl
  | case4 s pq v1 v2 rest h hh ih =>
    intro hlen hall
    rw [deser_loop_eq_two h, if_neg hh]
    refine ih (pqueue_enqueue_length_le hlen) ?_
    intro x hx
    rcases mem_enqueue hx with hmem | heq
    · exact hall x hmem
    · subst heq; rfl

lemma deserialize_sumOK (s : List Char) : sumOK (tree_deserialize s) = true := by
  unfold tree_deserialize
  split
  · exact deser_loop_sumOK _ [] (by norm_num [MAXSIZE]) (by intro x hx; cases hx)
  · rfl

lemma foldl_enqueue_length_le :
    ∀ (recs : List (Int × Int)) (pq : List TreeNode), pq.length ≤ MAXSIZE →
    (recs.foldl (fun q p => pqueue_enqueue q (leafOfRec p)) pq).length ≤ MAXSIZE := by
  intro recs
  induction recs with
  | nil => intro pq h; exact h
  | cons p rs ih =>
    intro pq h
    rw [List.foldl_cons]
    exact ih _ (pqueue_enqueue_length_le h)

lemma foldl_enqueue_length_pos :
    ∀ (recs : List (Int × Int)) (pq : List TreeNode), 1 ≤ pq.length →
    1 ≤ (recs.foldl (fun q p => pqueue_enqueue q (leafOfRec p)) pq).length := by
  intro recs
  induction recs with
  | nil => intro pq h; exact h
  | cons p rs ih =>
    intro pq _h
    rw [List.foldl_cons]
    exact ih _ (pqueue_enqueue_length_pos pq (leafOfRec p))

lemma foldl_enqueue_mem (P : TreeNode → Prop) (hP : ∀ p : Int × Int, P (leafOfRec p)) :
    ∀ (recs : List (Int × Int)) (pq : List TreeNode), (∀ x ∈ pq, P x) →
    ∀ y ∈ recs.foldl (fun q p => pqueue_enqueue q (leafOfRec p)) pq, P y := by
  intro recs
  induction recs with
  | nil => intro pq h y hy; exact h y hy
  | cons p rs ih =>
    intro pq h y hy
    rw [List.foldl_cons] at hy
    refine ih _ ?_ y hy
    intro x hx
    rcases mem_enqueue hx with hmem | heq
    · exact h x hmem
    · subst heq; exact hP p

lemma deserialize_records_ne_null (recs : List (Int × Int)) (tail : List Char)
    (h : recs ≠ []) :
    tree_deserialize ('#' :: ((recs.flatMap recordStr) ++ '#' :: tail)) ≠ TreeNode.null := by
  rw [tree_deserialize_cons_hash, deser_loop_records recs [] tail h]
  match recs, h with
  | p :: rs, _ =>
    rw [List.foldl_cons]
    refine merge_nodes_ne_null
      (foldl_enqueue_length_pos rs _ (pqueue_enqueue_length_pos [] (leafOfRec p)))
      (foldl_enqueue_length_le rs _ (pqueue_enqueue_length_le (by norm_num [MAXSIZE])))
      ?_
    exact foldl_enqueue_mem (fun t => t ≠ TreeNode.null)
      (fun p => TreeNode.noConfusion) rs _
      (by
        intro x hx
        rcases mem_enqueue hx with hmem | heq
        · cases hmem
        · subst heq; exact TreeNode.noConfusion)

/-! ## Round trip of the bit stream from a freshly opened write stream -/

lemma write_read_padded (bs : List Nat) (h : ∀ b ∈ bs, b < 2) :
    readAll (openR (bits_io_close_w (writeBits openW bs)))
      = bs ++ List.replicate ((8 - bs.length % 8) % 8) 0 := by
  rw [close_writeBits bs openW, readAll_openR]
  show ((([] : List Nat) ++ packPartial 0 0 bs).flatMap byteBits) = _
  rw [List.nil_append, flatten_packPartial bs 0 0 (by norm_num) (by norm_num) h]
  simp [bitsW]

lemma close_spec (bs : List Nat) (h : ∀ b ∈ bs, b < 2) :
    bits_io_close_w (writeBits openW bs) = packSpecFull bs := by
  rw [close_writeBits bs openW]
  show ([] : List Nat) ++ packPartial 0 0 bs = packSpecFull bs
  rw [List.nil_append, packPartial_eq_packSpecFull bs 0 0 (by norm_num) (by norm_num) h,
    show bitsW 0 0 ++ bs = bs from by simp [bitsW]]

/-! ## The walk stated by the spec for huffman_find -/

/-- Modelled from the spec: the node reached by walking the tree from the
root, taking the left child for each 1 character and the right child for any
other character, with none when the needed child is missing. -/
def walkSpec : TreeNode → List Char → Option TreeNode
  | t, [] => some t
  | t, ch :: rest =>
    if ch = '1' then
      if t.left = TreeNode.null then none else walkSpec t.left rest
    else
      if t.right = TreeNode.null then none else walkSpec t.right rest

lemma huffman_find_eq_walkSpec : ∀ (enc : List Char) (t : TreeNode),
    huffman_find t enc = match walkSpec t enc with
      | none => some (-1)
      | some u => if tree_is_leaf u then some u.freqc else none := by
  intro enc
  induction enc with
  | nil => intro t; rfl
  | cons ch rest ih =>
    intro t
    show (if ch = '1' then
        if t.left = TreeNode.null then some (-1) else huffman_find t.left rest
      else
        if t.right = TreeNode.null then some (-1) else huffman_find t.right rest) = _
    by_cases hch : ch = '1'
    · rw [if_pos hch]
      by_cases hl : t.left = TreeNode.null
      · rw [if_pos hl, walkSpec, if_pos hch, if_pos hl]
      · rw [if_neg hl, walkSpec, if_pos hch, if_neg hl, ih t.left]
    · rw [if_neg hch]
      by_cases hr : t.right = TreeNode.null
      · rw [if_pos hr, walkSpec, if_neg hch, if_pos hr]
      · rw [if_neg hr, walkSpec, if_neg hch, if_neg hr, ih t.right]

/-! ## The fixed-width header round trip -/

lemma or_shift_pow {a c k : Nat} (h : c < 2^k) : (a <<< k) ||| c = a * 2^k + c := by
  apply Nat.eq_of_testBit_eq
  intro j
  rw [Nat.testBit_or, Nat.testBit_shiftLeft,
    show a * 2^k + c = 2^k * a + c from by ring, Nat.testBit_mul_pow_two_add a h j]
  by_cases hj : j < k
  · rw [if_pos hj, decide_eq_false (by omega : ¬ k ≤ j)]
    simp
  · rw [if_neg hj, decide_eq_true (by omega : k ≤ j)]
    have hc : c.testBit j = false :=
      Nat.testBit_lt_two_pow (lt_of_lt_of_le h (Nat.pow_le_pow_right (by omega) (by omega)))
    rw [hc]
    simp

lemma mod_pow_add_decomp (v a b : Nat) :
    v % 2^(a+b) = (v / 2^a % 2^b) * 2^a + v % 2^a := by
  have h : v % (2^a * 2^b) = v % 2^a + 2^a * (v / 2^a % 2^b) := Nat.mod_mul
  rw [pow_add, h]
  ring

lemma read_loop_write_bytes : ∀ (k : Nat) (v acc : Nat), acc < 2^64 →
    read_offset_loop ((List.range k).reverse.map (fun j => (v >>> (j * 8)) % 256)) acc k
      = (acc * 2^(8*k) + v % 2^(8*k)) % 2^64 := by
  intro k
  induction k with
  | zero =>
    intro v acc hacc
    show acc = (acc * 2^0 + v % 2^0) % 2^64
    rw [pow_zero, Nat.mod_one, mul_one, Nat.add_zero, Nat.mod_eq_of_lt hacc]
  | succ k ih =>
    intro v acc hacc
    rw [List.range_succ, List.reverse_append]
    show read_offset_loop (((v >>> (k * 8)) % 256)
        :: (List.range k).reverse.map (fun j => (v >>> (j * 8)) % 256)) acc (k+1) = _
    rw [show read_offset_loop (((v >>> (k * 8)) % 256)
          :: (List.range k).reverse.map (fun j => (v >>> (j * 8)) % 256)) acc (k+1)
        = read_offset_loop ((List.range k).reverse.map (fun j => (v >>> (j * 8)) % 256))
          (((acc <<< 8) ||| ((v >>> (k * 8)) % 256 % 256)) % 2^64) k from rfl]
    rw [Nat.mod_mod_of_dvd _ dvd_rfl,
      or_shift_pow (Nat.mod_lt _ (by norm_num) : (v >>> (k * 8)) % 256 < 2^8)]
    rw [ih v _ (Nat.mod_lt _ (by norm_num))]
    have hmodeq : ((acc * 2^8 + (v >>> (k * 8)) % 256) % 2^64 * 2^(8*k) + v % 2^(8*k)) % 2^64
        = ((acc * 2^8 + (v >>> (k * 8)) % 256) * 2^(8*k) + v % 2^(8*k)) % 2^64 :=
      (((Nat.mod_modEq _ _).mul_right _).add_right _)
    rw [hmodeq, Nat.shiftRight_eq_div_pow]
    have hdec := mod_pow_add_decomp v (8*k) 8
    have hexp : 8 * k + 8 = 8 * (k + 1) := by ring
    rw [hexp] at hdec
    have hjk : v / 2 ^ (k * 8) = v / 2 ^ (8 * k) := by rw [Nat.mul_comm]
    rw [hjk]
    congr 1
    rw [hdec]
    ring

lemma read_loop_short : ∀ (file : List Nat) (i acc : Nat), file.length < i →
    read_offset_loop file acc i = 2^64 - 1 := by
  intro file
  induction file with
  | nil =>
    intro i acc h
    match i, h with
    | i+1, _ => rfl
  | cons c r ih =>
    intro i acc h
    match i, h with
    | i+1, h =>
      show read_offset_loop r _ i = 2^64 - 1
      exact ih i _ (by simp at h; omega)

lemma read_offset_write_offset_bytes (v : Nat) (hv : v < 2^64) :
    read_offset 'r' (write_offset_bytes v) = v := by
  unfold read_offset
  rw [if_neg (by simp)]
  unfold write_offset_bytes
  rw [read_loop_write_bytes 8 v 0 (by norm_num),
    show (8:Nat)*8 = 64 from by norm_num, Nat.zero_mul, Nat.zero_add,
    Nat.mod_mod_of_dvd _ dvd_rfl, Nat.mod_eq_of_lt hv]

lemma write_offset_bytes_length (v : Nat) : (write_offset_bytes v).length = 8 := by
  unfold write_offset_bytes
  simp

/-! ## Claim theorems -/

/-- Claim C1 (corrected): reading back a written bit stream does not return
exactly the written bits; it returns the written bits followed by the zero
bits that bits_io_close pads the final partial byte with, because the read
protocol has no in-band end marker and end of data is signaled only at byte
granularity. -/
theorem claim_C1 (bs : List Nat) (h : ∀ b ∈ bs, b < 2) :
    readAll (openR (bits_io_close_w (writeBits openW bs)))
      = bs ++ List.replicate ((8 - bs.length % 8) % 8) 0 :=
  write_read_padded bs h

/-- Witness for C1 at the concrete bit sequence 1,0,1: three written bits
come back followed by five zero pad bits. -/
theorem claim_C1_witness :
    readAll (openR (bits_io_close_w (writeBits openW [1, 0, 1])))
      = [1, 0, 1, 0, 0, 0, 0, 0] := by
  rw [claim_C1 [1, 0, 1] (by decide)]
  rfl

/-- Counterexample to C1 as stated: writing the single bit 1 and reading the
file back does not yield exactly that one bit. -/
theorem claim_C1_counterexample :
    readAll (openR (bits_io_close_w (writeBits openW [1]))) ≠ [1] := by
  rw [write_read_padded [1] (by decide)]
  decide

/-- Claim C2 (corrected): the output of a write sequence followed by close is
exactly the written bits packed eight per byte plus one zero padded final
byte for a trailing partial group; no byte value is excluded, and in
particular the value 254 (0xFE) is emitted whenever the stream ends with the
seven bits 1111111. -/
theorem claim_C2 (bs : List Nat) (h : ∀ b ∈ bs, b < 2) :
    bits_io_close_w (writeBits openW bs) = packSpecFull bs :=
  close_spec bs h

/-- Witness for C2 at the concrete bit sequence 1,0,1. -/
theorem claim_C2_witness :
    bits_io_close_w (writeBits openW [1, 0, 1]) = packSpecFull [1, 0, 1] :=
  claim_C2 [1, 0, 1] (by decide)

/-- Counterexample to C2 as stated: seven 1 bits produce the single output
byte 254 = 0xFE, the value the claim says is never emitted. -/
theorem claim_C2_counterexample :
    bits_io_close_w (writeBits openW [1, 1, 1, 1, 1, 1, 1]) = [254] := by
  decide

/-- Claim C3 (code bug): huffman.c never marks the nodes it creates as LEAF
(create_tree_nodes leaves the tree_new default INTERNAL in place), so
tree_serialize emits no leaf records for any tree built by
huffman_build_tree; every serialization is the two characters ## and
deserializing it yields the null tree, losing the entire leaf multiset
instead of reproducing it. -/
theorem claim_C3 : ∀ input : List Nat,
    tree_serialize (huffman_build_tree input) = ['#', '#']
    ∧ tree_deserialize (tree_serialize (huffman_build_tree input)) = TreeNode.null := by
  intro input
  have h1 := serialize_build_tree input
  refine ⟨h1, ?_⟩
  rw [h1]
  exact deserialize_hash_hash

/-- Claim C4 (corrected): pqueue_dequeue does return the minimum under the
comparator of pqueue.c and the heap operations preserve the heap invariant,
but the tie break on equal counts is the SIGNED char value, not the byte
value: bytes 128 to 255 compare as negative numbers and win ties against
bytes 0 to 127. -/
theorem claim_C4 :
    heapInv pqueue_new
    ∧ (∀ (pq : List TreeNode) (n : TreeNode), heapInv pq →
        heapInv (pqueue_enqueue pq n))
    ∧ (∀ (pq rest : List TreeNode) (x : TreeNode), heapInv pq →
        pqueue_dequeue pq = some (x, rest) →
        x ∈ pq ∧ (∀ y ∈ pq, comparator x y ≤ 0) ∧ pq.Perm (x :: rest) ∧ heapInv rest) := by
  refine ⟨heapInv_nil, fun pq n h => pqueue_enqueue_heapInv h, ?_⟩
  intro pq rest x hinv hdq
  exact ⟨mem_dequeue_fst hdq, pqueue_dequeue_min hinv hdq, pqueue_dequeue_perm hdq,
    pqueue_dequeue_heapInv hinv hdq⟩

/-- Witness for C4 at a concrete one element queue. -/
theorem claim_C4_witness :
    heapInv (pqueue_enqueue [] (TreeNode.node ⟨1, 5⟩ NType.INTERNAL .null .null))
    ∧ [TreeNode.node ⟨1, 5⟩ NType.INTERNAL .null .null].Perm
        (TreeNode.node ⟨1, 5⟩ NType.INTERNAL .null .null :: [])
    ∧ heapInv ([] : List TreeNode) :=
  ⟨claim_C4.2.1 [] (TreeNode.node ⟨1, 5⟩ NType.INTERNAL .null .null) (by decide),
   (claim_C4.2.2 [TreeNode.node ⟨1, 5⟩ NType.INTERNAL .null .null] []
     (TreeNode.node ⟨1, 5⟩ NType.INTERNAL .null .null) (by decide)
     (pqueue_dequeue_single _)).2.2.1,
   (claim_C4.2.2 [TreeNode.node ⟨1, 5⟩ NType.INTERNAL .null .null] []
     (TreeNode.node ⟨1, 5⟩ NType.INTERNAL .null .null) (by decide)
     (pqueue_dequeue_single _)).2.2.2⟩

/-- Counterexample to C4 as stated: two leaves with equal count 1 and symbol
bytes 1 and 255; the claim says the byte 1 leaf is dequeued first, but the
byte 255 leaf (signed char value -1) is returned. -/
theorem claim_C4_counterexample :
    pqueue_dequeue (pqueue_enqueue (pqueue_enqueue pqueue_new
        (TreeNode.node ⟨1, 1⟩ .INTERNAL .null .null))
        (TreeNode.node ⟨1, signedChar 255⟩ .INTERNAL .null .null))
      = some (TreeNode.node ⟨1, signedChar 255⟩ .INTERNAL .null .null,
          [TreeNode.node ⟨1, 1⟩ .INTERNAL .null .null])
    ∧ TreeNode.node ⟨1, signedChar 255⟩ .INTERNAL .null .null
        ≠ TreeNode.node ⟨1, 1⟩ .INTERNAL .null .null := by
  have h1 : pqueue_enqueue pqueue_new (TreeNode.node ⟨1, 1⟩ .INTERNAL .null .null)
      = [TreeNode.node ⟨1, 1⟩ .INTERNAL .null .null] := pqueue_enqueue_nil _
  have h2 : pqueue_enqueue [TreeNode.node ⟨1, 1⟩ .INTERNAL .null .null]
      (TreeNode.node ⟨1, signedChar 255⟩ .INTERNAL .null .null)
      = [TreeNode.node ⟨1, signedChar 255⟩ .INTERNAL .null .null,
         TreeNode.node ⟨1, 1⟩ .INTERNAL .null .null] :=
    pqueue_enqueue_one_swap _ (by decide)
  rw [h1, h2, pqueue_dequeue_pair]
  exact ⟨rfl, by decide⟩

/-- Claim C5 (confirmed): with a single node in the queue, merge_nodes first
enqueues the sentinel node of count -1 (smaller than every real count, which
is at least 1), and the result is one internal root whose left child is the
sentinel and whose right child is the real node; the real symbol then has
the one bit code 0. -/
theorem claim_C5 (v c : Int) (ty : NType) (hv : 1 ≤ v) :
    merge_nodes [TreeNode.node ⟨v, c⟩ ty .null .null]
      = TreeNode.node ⟨-1 + v, 0⟩ .INTERNAL
          (TreeNode.node ⟨-1, 0⟩ .INTERNAL .null .null)
          (TreeNode.node ⟨v, c⟩ ty .null .null)
    ∧ (-1 : Int) < v
    ∧ huffman_find (merge_nodes [TreeNode.node ⟨v, c⟩ ty .null .null]) ['0'] = some c
    ∧ tree_is_leaf (TreeNode.node ⟨-1, 0⟩ .INTERNAL .null .null) = true
    ∧ tree_is_leaf (TreeNode.node ⟨v, c⟩ ty .null .null) = true := by
  have hm := merge_nodes_single v c ty hv
  refine ⟨hm, by omega, ?_, rfl, rfl⟩
  rw [hm]
  simp [huffman_find, tree_is_leaf, TreeNode.right, TreeNode.left, TreeNode.freqc]

/-- Witness for C5 at count 3 and symbol 97. -/
theorem claim_C5_witness :
    merge_nodes [TreeNode.node ⟨3, 97⟩ NType.INTERNAL .null .null]
      = TreeNode.node ⟨-1 + 3, 0⟩ NType.INTERNAL
          (TreeNode.node ⟨-1, 0⟩ NType.INTERNAL .null .null)
          (TreeNode.node ⟨3, 97⟩ NType.INTERNAL .null .null)
    ∧ (-1 : Int) < 3
    ∧ huffman_find (merge_nodes [TreeNode.node ⟨3, 97⟩ NType.INTERNAL .null .null]) ['0']
        = some 97
    ∧ tree_is_leaf (TreeNode.node ⟨-1, 0⟩ NType.INTERNAL .null .null) = true
    ∧ tree_is_leaf (TreeNode.node ⟨3, 97⟩ NType.INTERNAL .null .null) = true :=
  claim_C5 3 97 NType.INTERNAL (by norm_num)

/-- Claim C6 (corrected): tree_deserialize returns null on input not starting
with a hash mark, on a record that fails to parse (an fscanf with fewer than
two conversions) and on premature end of input (fscanf meeting the end of the
stream), each after any number of good records, and it succeeds on blocks
with at least one leaf record; but it also returns null on the well formed
zero record block ##, because the fscanf of the first record fails before the
closing hash mark is ever peeked at. -/
theorem claim_C6 :
    (∀ s : List Char, s.headD 'x' ≠ '#' → tree_deserialize s = TreeNode.null)
    ∧ tree_deserialize ['#', '#'] = TreeNode.null
    ∧ (∀ (recs : List (Int × Int)) (tail : List Char), recs ≠ [] →
        tree_deserialize ('#' :: ((recs.flatMap recordStr) ++ '#' :: tail))
          = merge_nodes (recs.foldl (fun q p => pqueue_enqueue q (leafOfRec p)) [])
        ∧ tree_deserialize ('#' :: ((recs.flatMap recordStr) ++ '#' :: tail))
          ≠ TreeNode.null)
    ∧ (∀ (recs : List (Int × Int)) (s : List Char),
        (fscanf_dd s = ScanDD.eofErr ∨ fscanf_dd s = ScanDD.short) →
        s.headD 'x' ≠ '#' →
        tree_deserialize ('#' :: ((recs.flatMap recordStr) ++ s)) = TreeNode.null)
    ∧ (∀ recs : List (Int × Int),
        tree_deserialize ('#' :: (recs.flatMap recordStr)) = TreeNode.null) := by
  refine ⟨tree_deserialize_not_hash, deserialize_hash_hash, ?_, ?_, ?_⟩
  · intro recs tail h
    exact ⟨by rw [tree_deserialize_cons_hash, deser_loop_records recs [] tail h],
      deserialize_records_ne_null recs tail h⟩
  · intro recs s hf hh
    rw [tree_deserialize_cons_hash]
    exact deser_loop_records_fail recs [] s hf hh
  · intro recs
    rw [tree_deserialize_cons_hash,
      show recs.flatMap recordStr = recs.flatMap recordStr ++ [] from
        (List.append_nil _).symm]
    exact deser_loop_records_fail recs [] [] (Or.inl rfl) (by decide)

/-- Witness for C6: one record parses to a non null tree; input without a
leading hash mark is rejected; a good record followed by an unparsable one is
rejected; and a good record followed by the end of the input is rejected. -/
theorem claim_C6_witness :
    tree_deserialize ('#' :: (([((5:Int), (97:Int))].flatMap recordStr) ++ '#' :: []))
      ≠ TreeNode.null
    ∧ tree_deserialize (['x'] : List Char) = TreeNode.null
    ∧ tree_deserialize ('#' :: (([((5:Int), (97:Int))].flatMap recordStr)
        ++ ['a', 'b', 'c'])) = TreeNode.null
    ∧ tree_deserialize ('#' :: ([((5:Int), (97:Int))].flatMap recordStr))
      = TreeNode.null :=
  ⟨(claim_C6.2.2.1 [(5, 97)] [] (by simp)).2, claim_C6.1 ['x'] (by decide),
   claim_C6.2.2.2.1 [(5, 97)] ['a', 'b', 'c'] (Or.inr rfl) (by decide),
   claim_C6.2.2.2.2 [(5, 97)]⟩

/-- Counterexample to C6 as stated: the zero record block ## is well formed
per the spec but tree_deserialize returns null on it. -/
theorem claim_C6_counterexample : tree_deserialize ['#', '#'] = TreeNode.null := by
  rw [tree_deserialize_cons_hash]
  exact deser_loop_eq_fail (Or.inr rfl)

/-- Claim C7 (corrected): huffman_find walks left on character 1 and right on
any other character and returns -1 when a needed child is missing, but when
the bit string ends at a non leaf node the C code fails an assertion (modelled
as none) instead of returning -1. -/
theorem claim_C7 : ∀ (t : TreeNode) (enc : List Char),
    huffman_find t enc = match walkSpec t enc with
      | none => some (-1)
      | some u => if tree_is_leaf u then some u.freqc else none :=
  fun t enc => huffman_find_eq_walkSpec enc t

/-- Counterexample to C7 as stated: the empty bit string ends at the internal
root of a two leaf tree; the claim says -1 is returned but the function does
not return at all (assertion failure, modelled as none). -/
theorem claim_C7_counterexample :
    huffman_find (TreeNode.node ⟨2, 0⟩ .INTERNAL
        (TreeNode.node ⟨1, 97⟩ .INTERNAL .null .null)
        (TreeNode.node ⟨1, 98⟩ .INTERNAL .null .null)) [] ≠ some (-1)
    ∧ tree_is_leaf (TreeNode.node ⟨2, 0⟩ .INTERNAL
        (TreeNode.node ⟨1, 97⟩ .INTERNAL .null .null)
        (TreeNode.node ⟨1, 98⟩ .INTERNAL .null .null)) = false :=
  ⟨by decide, by decide⟩

/-- Claim C8 (confirmed): every tree produced by merge_nodes from a queue of
count coherent nodes satisfies the child sum invariant, and its root count
equals the sum of its leaf counts; in particular this holds for every tree
built by huffman_build_tree and every tree returned by tree_deserialize. -/
theorem claim_C8 :
    (∀ pq : List TreeNode, 1 ≤ pq.length → pq.length ≤ MAXSIZE →
        (∀ x ∈ pq, sumOK x = true) →
        sumOK (merge_nodes pq) = true
        ∧ (merge_nodes pq).freqv = leafSum (merge_nodes pq))
    ∧ (∀ input : List Nat, sumOK (huffman_build_tree input) = true
        ∧ (huffman_build_tree input).freqv = leafSum (huffman_build_tree input))
    ∧ (∀ s : List Char, sumOK (tree_deserialize s) = true
        ∧ (tree_deserialize s).freqv = leafSum (tree_deserialize s)) := by
  refine ⟨?_, ?_, ?_⟩
  · intro pq _h1 h2 hall
    have hs := merge_nodes_sumOK h2 hall
    exact ⟨hs, freqv_eq_leafSum _ hs⟩
  · intro input
    have hs := build_tree_sumOK input
    exact ⟨hs, freqv_eq_leafSum _ hs⟩
  · intro s
    have hs := deserialize_sumOK s
    exact ⟨hs, freqv_eq_leafSum _ hs⟩

/-- Witness for C8 at a concrete two leaf queue. -/
theorem claim_C8_witness :
    sumOK (merge_nodes [TreeNode.node ⟨2, 7⟩ NType.INTERNAL .null .null,
        TreeNode.node ⟨3, 8⟩ NType.INTERNAL .null .null]) = true
    ∧ (merge_nodes [TreeNode.node ⟨2, 7⟩ NType.INTERNAL .null .null,
        TreeNode.node ⟨3, 8⟩ NType.INTERNAL .null .null]).freqv
      = leafSum (merge_nodes [TreeNode.node ⟨2, 7⟩ NType.INTERNAL .null .null,
        TreeNode.node ⟨3, 8⟩ NType.INTERNAL .null .null]) :=
  claim_C8.1 [TreeNode.node ⟨2, 7⟩ NType.INTERNAL .null .null,
    TreeNode.node ⟨3, 8⟩ NType.INTERNAL .null .null] (by decide) (by decide) (by decide)

/-- Claim C9 (confirmed): write_offset emits exactly eight bytes, most
significant first, read_offset recovers every value below 2 to the 64 from
them, and an input of fewer than eight bytes makes read_offset return the
end of data signal. -/
theorem claim_C9 :
    (∀ v : Nat, v < 2^64 →
      (write_offset_bytes v).length = 8 ∧ read_offset 'r' (write_offset_bytes v) = v)
    ∧ (∀ file : List Nat, file.length < 8 → read_offset 'r' file = 2^64 - 1)
    ∧ write_offset 'w' 300 = some (write_offset_bytes 300) := by
  refine ⟨?_, ?_, ?_⟩
  · intro v hv
    exact ⟨write_offset_bytes_length v, read_offset_write_offset_bytes v hv⟩
  · intro file hlen
    unfold read_offset
    rw [if_neg (by simp)]
    exact read_loop_short file 8 0 hlen
  · rfl

/-- Witness for C9 at the value 300 and an empty read file. -/
theorem claim_C9_witness :
    (write_offset_bytes 300).length = 8
    ∧ read_offset 'r' (write_offset_bytes 300) = 300
    ∧ read_offset 'r' [] = 2^64 - 1 :=
  ⟨(claim_C9.1 300 (by norm_num)).1, (claim_C9.1 300 (by norm_num)).2,
   claim_C9.2.1 [] (by decide)⟩

/-- Claim C10 (confirmed): the failure signal of read_offset is the value
2^64 - 1, returned for end of data and wrong mode alike, and it coincides
with the legitimate decoding of eight 255 bytes, which is exactly what
write_offset emits for the value 2^64 - 1. -/
theorem claim_C10 :
    read_offset 'r' (List.replicate 8 255) = 2^64 - 1
    ∧ read_offset 'r' [] = 2^64 - 1
    ∧ read_offset 'x' [] = 2^64 - 1
    ∧ write_offset_bytes (2^64 - 1) = List.replicate 8 255 :=
  ⟨by decide, by decide, by decide, by decide⟩

end Huffman
